import Mathlib

/-!
Shallow embedding of the server-side streaming pipeline of the real-time
speech-to-speech translation relay, together with proofs about the claims
of its specification.

Texts are modelled as `List Char`.  JavaScript `Date.now()` timestamps are
passed explicitly as `ℕ` millisecond arguments.  The per-`sessionId:language`
entries of the JavaScript `Map`s are modelled one key at a time (the maps
hold independent state per key), or as association lists where several keys
interact.  The SHA-256 fingerprints (`crypto.createHash('sha256')...`,
truncated to 16 hex digits) are modelled injectively: a fingerprint is
represented by the exact string that the source feeds to the hash, so two
fingerprints are equal exactly when the hash inputs are equal.
-/

/-- The JS whitespace class `\s`, restricted to the code points that occur in
this development (space, tab, LF, CR, vertical tab, form feed, NBSP). -/
def jsWs (c : Char) : Bool :=
  c = ' ' || c = '\t' || c = '\n' || c = '\r' ||
  c = '\x0b' || c = '\x0c' || c = ' '

/-- JS `String.prototype.trim()`: strip leading and trailing whitespace. -/
def jsTrim (s : List Char) : List Char :=
  ((s.dropWhile jsWs).reverse.dropWhile jsWs).reverse

/-- JS `String.prototype.toLowerCase()`, restricted to the code points that
occur in this development: ASCII lowering plus the precomposed letter `É`. -/
def jsToLower (c : Char) : Char :=
  if c = 'É' then 'é' else c.toLower

/-- Helper: `dropWhile` never lengthens a list (used for termination). -/
theorem dropWhile_length_le {α : Type} (p : α → Bool) (l : List α) :
    (l.dropWhile p).length ≤ l.length :=
  (List.dropWhile_sublist p).length_le

/-- `startsWithWs l` is true when the first character of `l` is JS whitespace. -/
def startsWithWs (l : List Char) : Bool :=
  match l with
  | [] => false
  | c :: _ => jsWs c

/-- JS `text.split(/\s+/)` on already-trimmed text, as the list of maximal
non-whitespace runs (the source always filters out empty strings afterwards or
feeds trimmed text, so the JS corner case `"".split(/\s+/) = [""]` is
immaterial). -/
def splitWsRuns (cs : List Char) : List (List Char) :=
  match cs with
  | [] => []
  | c :: rest =>
    if jsWs c then
      splitWsRuns (rest.dropWhile jsWs)
    else
      (c :: rest.takeWhile (fun x => !jsWs x)) ::
        splitWsRuns (rest.dropWhile (fun x => !jsWs x))
  termination_by cs.length
  decreasing_by
  · simp only [List.length_cons]
    exact Nat.lt_succ_of_le (dropWhile_length_le _ _)
  · simp only [List.length_cons]
    exact Nat.lt_succ_of_le (dropWhile_length_le _ _)

/-- JS `words.join(' ')`. -/
def joinWords : List (List Char) → List Char
  | [] => []
  | [w] => w
  | w :: ws => w ++ ' ' :: joinWords ws

/-- Generic runner: feed a list of events through a state-passing step that
also emits a list of fingerprints per event, collecting all emissions in
order. -/
def runEmit {σ ε : Type} (step : σ → ε → σ × List (List Char)) :
    σ → List ε → List (List Char)
  | _, [] => []
  | s, e :: es => (step s e).2 ++ runEmit step (step s e).1 es

namespace ContinuousStreamProcessor

/-- `this.MIN_NEW_CHARS = 3` — minimum new content before sending. -/
def MIN_NEW_CHARS : ℤ := 3

/-- Per-`sessionId:language` state created by `getSession`. -/
structure Session where
  lastSentLength : ℕ
  fullText : List Char
  lastUpdateTime : ℕ
  deriving Repr, DecidableEq

/-- The fresh state installed by `getSession` on first use of a key. -/
def initSession (now : ℕ) : Session :=
  { lastSentLength := 0, fullText := [], lastUpdateTime := now }

/-- The object returned by `ContinuousStreamProcessor.processText`. -/
structure ProcessResult where
  shouldSend : Bool
  textToSend : List Char
  isFinal : Bool
  totalLength : ℕ
  newChars : ℤ
  deriving Repr, DecidableEq

/-- `ContinuousStreamProcessor.processText(sessionId, language, text, isFinal)`
for one `sessionId:language` key.  `newContentLength` is an integer because in
JS `text.length - session.lastSentLength` can be negative.  JS
`text.substring(start)` with `start ≥ text.length` yields the empty string,
matching `List.drop`. -/
def processText (s : Session) (now : ℕ) (text : List Char) (isFinal : Bool) :
    Session × ProcessResult :=
  let s0 : Session := { s with fullText := text }
  let newContentLength : ℤ := (text.length : ℤ) - (s0.lastSentLength : ℤ)
  if newContentLength ≥ MIN_NEW_CHARS ∨ isFinal then
    let textToSend := text.drop s0.lastSentLength
    if 0 < (jsTrim textToSend).length then
      ({ s0 with lastSentLength := text.length, lastUpdateTime := now },
       { shouldSend := true, textToSend := textToSend, isFinal := isFinal,
         totalLength := text.length, newChars := newContentLength })
    else
      (s0, { shouldSend := false, textToSend := textToSend, isFinal := isFinal,
             totalLength := text.length, newChars := newContentLength })
  else
    (s0, { shouldSend := false, textToSend := [], isFinal := isFinal,
           totalLength := text.length, newChars := newContentLength })

end ContinuousStreamProcessor

namespace EnhancedTTS

/-- The adaptive-speed and queue fields of the `EnhancedTTS` configuration. -/
structure Config where
  baseSpeed : ℚ
  maxSpeed : ℚ
  minSpeed : ℚ
  queueThreshold : ℕ
  criticalQueueSize : ℕ
  deriving Repr, DecidableEq

/-- The constructor defaults: `baseSpeed: 1.0, maxSpeed: 1.5, minSpeed: 0.9,
queueThreshold: 3, criticalQueueSize: 10`. -/
def defaultConfig : Config :=
  { baseSpeed := 1, maxSpeed := 3/2, minSpeed := 9/10,
    queueThreshold := 3, criticalQueueSize := 10 }

/-- `EnhancedTTS.calculateAdaptiveSpeed(queueDepth)`.  The metric/log side
effects of the source are omitted; `speedIncrement = 0.05 = 1/20`. -/
def calculateAdaptiveSpeed (cfg : Config) (queueDepth : ℕ) : ℚ :=
  if queueDepth ≤ cfg.queueThreshold then
    cfg.baseSpeed
  else
    let excessQueue : ℚ := ((queueDepth - cfg.queueThreshold : ℕ) : ℚ)
    let speedIncrement : ℚ := 1/20
    let targetSpeed : ℚ := cfg.baseSpeed + excessQueue * speedIncrement
    min targetSpeed cfg.maxSpeed

/-- One inspection of a single `sessionId:language` queue by the interval body
of `EnhancedTTS.startQueueMonitor`, with `metrics.currentDepth` in sync with
`queue.length`.  Returns the queue left in place and the list of entries
removed by `queue.splice(0, queue.length - criticalQueueSize)`; every removed
entry has its completion handle rejected, so the second component is exactly
the list of rejected entries, in queue order. -/
def queueMonitorStep {α : Type} (cfg : Config) (q : List α) : List α × List α :=
  if q.length > cfg.criticalQueueSize then
    if q.length > cfg.criticalQueueSize * 2 then
      (q.drop (q.length - cfg.criticalQueueSize),
       q.take (q.length - cfg.criticalQueueSize))
    else (q, [])
  else (q, [])

end EnhancedTTS

namespace HybridSentenceExtractor

/-- Characters of the `sentencePatterns` regex class `[.!?]`. -/
def sentencePatternChar (c : Char) : Bool :=
  c = '.' || c = '!' || c = '?'

/-- Characters of the trailing class `[\s​]` of `sentencePatterns`. -/
def sentenceTrailChar (c : Char) : Bool :=
  jsWs c || c = '​'

/-- The `abbreviations` set of the constructor. -/
def abbreviations : List (List Char) :=
  (["Mr.", "Mrs.", "Dr.", "Prof.", "Sr.", "Jr.",
    "Inc.", "Corp.", "Co.", "Ltd.", "LLC.",
    "U.S.", "U.K.", "E.U.", "U.N.",
    "etc.", "vs.", "i.e.", "e.g."].map String.data)

/-- `sentence.endsWith(abbr)` over the abbreviation set. -/
def isAbbreviation (s : List Char) : Bool :=
  abbreviations.any (fun a => a.isSuffixOf s)

/-- `DEFAULT_THRESHOLD = 1` (latency-first tuning). -/
def DEFAULT_THRESHOLD : ℕ := 1

/-- `DEFAULT_TIME_MS = 200`. -/
def DEFAULT_TIME_MS : ℕ := 200

/-- `CLEANUP_THRESHOLD_MS = 2000`. -/
def CLEANUP_THRESHOLD_MS : ℕ := 2000

/-- The scanning loop of `extractSentences`: the `sentencePatterns` regex
`[.!?]+[\s​]*` is matched by a maximal run of `.!?` followed by a maximal
run of whitespace/zero-width space; each sentence spans from the end of the
previous match to the end of the current one, is trimmed, and is kept when it
is not a bare abbreviation and is longer than 3 characters.  Text after the
last match is discarded, as in the source. -/
def extractSentencesAux (acc : List Char) (cs : List Char) : List (List Char) :=
  match cs with
  | [] => []
  | c :: rest =>
    if sentencePatternChar c then
      let run1 := c :: rest.takeWhile sentencePatternChar
      let rest1 := rest.dropWhile sentencePatternChar
      let run2 := rest1.takeWhile sentenceTrailChar
      let rest2 := rest1.dropWhile sentenceTrailChar
      let sentence := jsTrim (acc ++ run1 ++ run2)
      let tail := extractSentencesAux [] rest2
      if !(isAbbreviation sentence) && sentence.length > 3 then
        sentence :: tail
      else tail
    else
      extractSentencesAux (acc ++ [c]) rest
  termination_by cs.length
  decreasing_by
  · simp only [List.length_cons]
    exact Nat.lt_succ_of_le
      (le_trans (dropWhile_length_le _ _) (dropWhile_length_le _ _))
  · simp [List.length_cons, Nat.lt_succ_self]

/-- `HybridSentenceExtractor.extractSentences(text)`. -/
def extractSentences (text : List Char) : List (List Char) :=
  if text.isEmpty then [] else extractSentencesAux [] text

/-- `HybridSentenceExtractor.hashSentence(sentence)`: the SHA-256-derived
fingerprint is modelled injectively by its hash input
`sentence.trim().toLowerCase()`. -/
def hashSentence (sentence : List Char) : List Char :=
  (jsTrim sentence).map jsToLower

/-- The comma-like characters of the phrase-split regex `[,؛،]`. -/
def phraseDelimComma (c : Char) : Bool :=
  c = ',' || c = '؛' || c = '،'

/-- The dash alternatives of the phrase-split regex (`-` and `—`). -/
def phraseDash (c : Char) : Bool :=
  c = '-' || c = '—'

/-- Whether a list starts with the tail of a dash delimiter: a dash character
followed by whitespace (the `-\s+` / `—\s+` part of the split regex after its
leading `\s+`). -/
def dashDelimAt (l : List Char) : Bool :=
  match l with
  | [] => false
  | d :: rest2 => phraseDash d && startsWithWs rest2

/-- JS `text.split(/[,؛،]\s+|\s+-\s+|\s+—\s+/)`, by direct regex scanning:
a delimiter is a comma-like character followed by a whitespace run, or a
whitespace run, a dash and a whitespace run. -/
def phraseSplitAux (acc : List Char) (cs : List Char) : List (List Char) :=
  match cs with
  | [] => [acc.reverse]
  | c :: rest =>
    if phraseDelimComma c && startsWithWs rest then
      acc.reverse :: phraseSplitAux [] (rest.dropWhile jsWs)
    else if jsWs c && dashDelimAt (rest.dropWhile jsWs) then
      acc.reverse :: phraseSplitAux []
        (((rest.dropWhile jsWs).drop 1).dropWhile jsWs)
    else phraseSplitAux (c :: acc) rest
  termination_by cs.length
  decreasing_by
  · simp only [List.length_cons]
    exact Nat.lt_succ_of_le (dropWhile_length_le _ _)
  · simp only [List.length_cons]
    exact Nat.lt_succ_of_le
      (le_trans (dropWhile_length_le _ _)
        (le_trans (List.drop_sublist _ _).length_le (dropWhile_length_le _ _)))
  · simp only [List.length_cons]
    exact Nat.lt_succ_self _

/-- The fallback of `extractPhrases`: chunk the word list every 8 words. -/
def chunkEvery8 (ws : List (List Char)) : List (List Char) :=
  match ws with
  | [] => []
  | w :: rest =>
    joinWords ((w :: rest).take 8) :: chunkEvery8 ((w :: rest).drop 8)
  termination_by ws.length
  decreasing_by
  simp only [List.length_drop, List.length_cons]
  omega

/-- `HybridSentenceExtractor.extractPhrases(text)` (conference/phrase mode). -/
def extractPhrases (text : List Char) : List (List Char) :=
  if text.isEmpty then [] else
    let parts := phraseSplitAux [] text
    let phrases := (parts.map jsTrim).filter (fun s => decide (6 ≤ s.length))
    if phrases.isEmpty then
      (chunkEvery8 (splitWsRuns (jsTrim text))).filter (fun s => decide (6 ≤ s.length))
    else phrases

/-- The per-candidate record stored in `session.sentenceHistory`. -/
structure SentenceHistory where
  count : ℕ
  firstSeen : ℕ
  lastSeen : ℕ
  hash : List Char
  hasEndPunctuation : Bool
  deriving Repr, DecidableEq

/-- Per-`sessionId:language` state created by `getSession`.  The JS `Map`
`sentenceHistory` (insertion-ordered, unique keys) is an association list and
the JS `Set` `playedSentences` is a list used through `contains`. -/
structure Session where
  sentenceHistory : List (List Char × SentenceHistory)
  playedSentences : List (List Char)
  lastPartialText : List Char
  partialCount : ℕ
  lastCleanup : ℕ
  deriving Repr, DecidableEq

/-- The fresh per-key state installed by `getSession`. -/
def initSession (now : ℕ) : Session :=
  { sentenceHistory := [], playedSentences := [], lastPartialText := [],
    partialCount := 0, lastCleanup := now }

/-- The per-key parameters managed by `get/setSessionParams`. -/
structure Params where
  threshold : ℕ
  timeMs : ℕ
  phraseMode : Bool
  deriving Repr, DecidableEq

/-- Default parameters: `DEFAULT_THRESHOLD`, `DEFAULT_TIME_MS`, no phrase mode. -/
def defaultParams : Params :=
  { threshold := DEFAULT_THRESHOLD, timeMs := DEFAULT_TIME_MS, phraseMode := false }

/-- `sentenceHistory.get(sentence)` on the association list. -/
def historyFind (hist : List (List Char × SentenceHistory)) (s : List Char) :
    Option SentenceHistory :=
  (hist.find? (fun p => p.1 == s)).map (·.2)

/-- `sentenceHistory.set(sentence, e)` for an existing key: in-place update. -/
def historyUpdate (hist : List (List Char × SentenceHistory)) (s : List Char)
    (e : SentenceHistory) : List (List Char × SentenceHistory) :=
  hist.map (fun p => if p.1 == s then (p.1, e) else p)

/-- The regex test `/[.!?؟。！]$/` used for `hasEndPunctuation` (the source
file stores these code points as UTF-8 bytes). -/
def endPunctChar (c : Char) : Bool :=
  c = '.' || c = '!' || c = '?' || c = '؟' || c = '。' || c = '！'

/-- `/[.!?؟。！]$/.test(sentence.trim())`. -/
def hasEndPunctuationTest (s : List Char) : Bool :=
  match (jsTrim s).getLast? with
  | some c => endPunctChar c
  | none => false

/-- `HybridSentenceExtractor.calculateConfidence(count, timeAlive,
hasEndPunctuation, params)` in exact rational arithmetic (0.5/0.3/0.2/0.1
weights; the `??` defaults never apply because params are always passed). -/
def calculateConfidence (p : Params) (count timeAlive : ℕ) (hasEnd : Bool) : ℚ :=
  let countScore := min ((count : ℚ) / (p.threshold : ℚ)) 1 * (1/2)
  let timeScore := min ((timeAlive : ℚ) / (p.timeMs : ℚ)) 1 * (3/10)
  let completenessScore : ℚ := if hasEnd then 1/5 else 1/10
  countScore + timeScore + completenessScore

/-- An element of `result.stableSentences`. -/
structure StableSentence where
  text : List Char
  confidence : ℚ
  count : ℕ
  timeAlive : ℕ
  hash : List Char
  deriving Repr, DecidableEq

/-- The object returned by `processPartial`. -/
structure ProcessResult where
  displayText : List Char
  stableSentences : List StableSentence
  shouldGenerateTTS : Bool
  partialNumber : ℕ
  isFinal : Bool
  deriving Repr, DecidableEq

/-- In `detectRevisions`, the source compares
`history.count < this.STABILITY_THRESHOLD`; the field `STABILITY_THRESHOLD`
is never assigned on this class (the constructor defines `DEFAULT_THRESHOLD`
instead), so the JS comparison is `count < undefined`, which is `false` for
every count. -/
def countBelowStabilityThreshold (_count : ℕ) : Bool := false

/-- `HybridSentenceExtractor.detectRevisions(session, currentSentences, now)`
restricted to its effect on `sentenceHistory`: delete entries that are not in
the current sentence list, were last seen more than 1000 ms ago, and whose
count is below the (undefined) stability threshold. -/
def detectRevisions (hist : List (List Char × SentenceHistory))
    (currentSentences : List (List Char)) (now : ℕ) :
    List (List Char × SentenceHistory) :=
  hist.filter (fun p =>
    !(!(currentSentences.contains p.1) &&
      decide (1000 < now - p.2.lastSeen) &&
      countBelowStabilityThreshold p.2.count))

/-- `HybridSentenceExtractor.cleanupOldSentences(session, now)`. -/
def cleanupOldSentences (hist : List (List Char × SentenceHistory)) (now : ℕ) :
    List (List Char × SentenceHistory) :=
  hist.filter (fun p => !(decide (CLEANUP_THRESHOLD_MS < now - p.2.lastSeen)))

/-- One iteration of the `for (const sentence of currentSentences)` loop of
`processPartial`, threading the session state and the accumulating
`stableSentences` list. -/
def processSentenceStep (p : Params) (now : ℕ) (isFinal : Bool)
    (st : Session × List StableSentence) (sentence : List Char) :
    Session × List StableSentence :=
  let session := st.1
  let stable := st.2
  let hash := hashSentence sentence
  if session.playedSentences.contains hash then st
  else
    match historyFind session.sentenceHistory sentence with
    | none =>
      ({ session with
          sentenceHistory := session.sentenceHistory ++
            [(sentence,
              { count := 1, firstSeen := now, lastSeen := now, hash := hash,
                hasEndPunctuation := hasEndPunctuationTest sentence })] },
       stable)
    | some history =>
      let history' : SentenceHistory :=
        { history with count := history.count + 1, lastSeen := now }
      let session' : Session :=
        { session with
            sentenceHistory := historyUpdate session.sentenceHistory sentence history' }
      let timeAlive := now - history'.firstSeen
      let confidence := calculateConfidence p history'.count timeAlive
        history'.hasEndPunctuation
      let isStable :=
        decide (p.threshold ≤ history'.count) ||
        (isFinal && decide (1 ≤ history'.count)) ||
        (decide (p.timeMs < timeAlive) && decide (2 ≤ history'.count))
      if isStable && !(session'.playedSentences.contains hash) then
        ({ session' with playedSentences := session'.playedSentences ++ [hash] },
         stable ++ [{ text := sentence, confidence := confidence,
                      count := history'.count, timeAlive := timeAlive,
                      hash := hash }])
      else (session', stable)

/-- `HybridSentenceExtractor.processPartial(sessionId, language, text,
isFinal)` for one `sessionId:language` key, with `Date.now()` passed as
`now` and the session parameters passed explicitly.  `preprocess` is the
opening of `processPartial`: the periodic cleanup of old sentences followed by
the `session.partialCount++` update. -/
def preprocess (session : Session) (now : ℕ) : Session :=
  let s1 :=
    if CLEANUP_THRESHOLD_MS < now - session.lastCleanup then
      { session with
          sentenceHistory := cleanupOldSentences session.sentenceHistory now,
          lastCleanup := now }
    else session
  { s1 with partialCount := s1.partialCount + 1 }

/-- The body of `processPartial` after `preprocess`: extract sentences (or
phrases in phrase mode), fold the stability loop over them, run
`detectRevisions`, record the last partial text, and assemble the result. -/
def processPartial (p : Params) (session : Session) (now : ℕ)
    (text : List Char) (isFinal : Bool) : Session × ProcessResult :=
  let s2 := preprocess session now
  let currentSentences :=
    if p.phraseMode then extractPhrases text else extractSentences text
  let folded := currentSentences.foldl (processSentenceStep p now isFinal)
    (s2, [])
  let s3 :=
    { folded.1 with
        sentenceHistory :=
          detectRevisions folded.1.sentenceHistory currentSentences now }
  let s4 := { s3 with lastPartialText := text }
  (s4,
   { displayText := text, stableSentences := folded.2,
     shouldGenerateTTS := !folded.2.isEmpty,
     partialNumber := s4.partialCount, isFinal := isFinal })

/-- One transcript event fed to the hybrid extractor: the session parameters
in force (set by `adjustForContinuousSpeech`), the clock value, the translated
text and the final flag. -/
structure Event where
  params : Params
  now : ℕ
  text : List Char
  isFinal : Bool

/-- One `processPartial` call viewed as a state transition that emits the
fingerprints of its stable sentences. -/
def hybridStep (s : Session) (e : Event) : Session × List (List Char) :=
  let r := processPartial e.params s e.now e.text e.isFinal
  (r.1, r.2.stableSentences.map (·.hash))

/-- The fingerprints emitted for synthesis by a sequence of
`processPartial` calls, in order. -/
def runEmitted (s : Session) (events : List Event) : List (List Char) :=
  runEmit hybridStep s events

/-- Invariant of the stability loop: the fingerprints accumulated in
`stableSentences` are duplicate-free, none of them was in the played set
`played0` at call entry, and the current played set is exactly `played0`
extended by the accumulated fingerprints. -/
def PlayedInv (played0 : List (List Char))
    (st : Session × List StableSentence) : Prop :=
  (st.2.map (·.hash)).Nodup ∧
  (∀ h ∈ st.2.map (·.hash), h ∉ played0) ∧
  (∀ h, h ∈ st.1.playedSentences ↔ h ∈ played0 ∨ h ∈ st.2.map (·.hash))

end HybridSentenceExtractor

namespace UltraLowLatencyExtractor

/-- `MIN_CHUNK_WORDS = 3`. -/
def MIN_CHUNK_WORDS : ℕ := 3

/-- `MAX_CHUNK_WORDS = 10`. -/
def MAX_CHUNK_WORDS : ℕ := 10

/-- `CHUNK_DELAY_MS = 100`. -/
def CHUNK_DELAY_MS : ℕ := 100

/-- The `breakPoints` regex class `[,;:\-–—]` (the source file stores the
dashes as UTF-8 bytes). -/
def breakPointChar (c : Char) : Bool :=
  c = ',' || c = ';' || c = ':' || c = '-' || c = '–' || c = '—'

/-- The `sentenceEndings` regex `[.!?]+\s*`; a `.test` succeeds iff some
character of the class occurs. -/
def sentenceEndingChar (c : Char) : Bool :=
  c = '.' || c = '!' || c = '?'

/-- `breakPoints.test(text) || sentenceEndings.test(text)`.  The source
regexes carry the `g` flag, which in JS makes `.test` stateful across calls
through `lastIndex`; each test is modelled as a fresh stateless match.  This
affects only where chunks are cut, never the duplicate suppression. -/
def hasBreakOrEnding (text : List Char) : Bool :=
  text.any breakPointChar || text.any sentenceEndingChar

/-- Per-`sessionId:language` state created by `getSession`. -/
structure Session where
  spokenChunks : List (List Char)
  pendingWords : List (List Char)
  lastChunkTime : ℕ
  sequenceNumber : ℕ
  currentText : List Char
  lastProcessedLength : ℕ
  deriving Repr, DecidableEq

/-- The fresh per-key state installed by `getSession`. -/
def initSession (now : ℕ) : Session :=
  { spokenChunks := [], pendingWords := [], lastChunkTime := now,
    sequenceNumber := 0, currentText := [], lastProcessedLength := 0 }

/-- `UltraLowLatencyExtractor.hashText(text)`: the SHA-256-derived
fingerprint, modelled injectively by its input `text.trim().toLowerCase()`. -/
def hashText (text : List Char) : List Char :=
  (jsTrim text).map jsToLower

/-- `UltraLowLatencyExtractor.extractNewWords(session, text)`. -/
def extractNewWords (s : Session) (text : List Char) : List (List Char) :=
  if text.length ≤ s.lastProcessedLength then []
  else splitWsRuns (jsTrim (text.drop s.lastProcessedLength))

/-- `UltraLowLatencyExtractor.shouldGenerateChunk(session, words)`. -/
def shouldGenerateChunk (s : Session) (now : ℕ) (words : List (List Char)) :
    Bool :=
  if MIN_CHUNK_WORDS ≤ words.length then
    let text := joinWords words
    if hasBreakOrEnding text then true
    else if CHUNK_DELAY_MS ≤ now - s.lastChunkTime then true
    else if MAX_CHUNK_WORDS ≤ words.length then true
    else false
  else false

/-- `UltraLowLatencyExtractor.createChunk(words)` (its `if` has an empty
body, so it is `words.join(' ')`). -/
def createChunk (words : List (List Char)) : List Char :=
  joinWords words

/-- The chunk-size search loop inside `processText`: `chunkSize` starts at
`MIN_CHUNK_WORDS`, is updated to each `i` up to `min(MAX_CHUNK_WORDS,
pending.length)`, and the loop breaks at the first prefix containing a break
point or sentence ending. -/
def findChunkSizeAux (pending : List (List Char)) (m i : ℕ) : ℕ :=
  if i ≤ m then
    if hasBreakOrEnding (joinWords (pending.take i)) then i
    else if i = m then m
    else findChunkSizeAux pending m (i + 1)
  else MIN_CHUNK_WORDS
  termination_by m + 1 - i

/-- The chunk size chosen by one iteration of the `while` loop of
`processText`. -/
def findChunkSize (pending : List (List Char)) : ℕ :=
  findChunkSizeAux pending (min MAX_CHUNK_WORDS pending.length) MIN_CHUNK_WORDS

/-- An element of `result.chunks`. -/
structure Chunk where
  text : List Char
  sequence : ℕ
  hash : List Char
  wordCount : ℕ
  deriving Repr, DecidableEq

/-- The body of one iteration of the `while` loop of `processText`: choose
the chunk size, splice the chunk words off the pending buffer, and emit the
chunk unless its fingerprint is already in `spokenChunks`. -/
def chunkIter (now : ℕ) (s : Session) (acc : List Chunk) :
    Session × List Chunk :=
  let chunkSize := findChunkSize s.pendingWords
  let chunkWords := s.pendingWords.take chunkSize
  let rest := s.pendingWords.drop chunkSize
  let chunkText := createChunk chunkWords
  let hash := hashText chunkText
  if s.spokenChunks.contains hash then
    ({ s with pendingWords := rest }, acc)
  else
    ({ s with
        pendingWords := rest,
        spokenChunks := s.spokenChunks ++ [hash],
        lastChunkTime := now,
        sequenceNumber := s.sequenceNumber + 1 },
     acc ++ [{ text := chunkText, sequence := s.sequenceNumber + 1,
               hash := hash, wordCount := chunkWords.length }])

/-- The `while (shouldGenerateChunk(...) || (isFinal && pending.length > 0))`
loop of `processText`, with `if (!isFinal) break` at the bottom.  It is run
with `fuel = session.pendingWords.length`, which is exact: every iteration
requires a non-empty pending buffer and splices off `findChunkSize ≥ 3 ≥ 1`
words, so the loop performs at most `pendingWords.length` iterations and at
fuel 0 the buffer is empty and the loop condition is false anyway. -/
def chunkLoop (now : ℕ) (isFinal : Bool) :
    ℕ → Session → List Chunk → Session × List Chunk
  | 0, s, acc => (s, acc)
  | fuel + 1, s, acc =>
    if shouldGenerateChunk s now s.pendingWords ||
        (isFinal && decide (0 < s.pendingWords.length)) then
      let next := chunkIter now s acc
      if isFinal then chunkLoop now isFinal fuel next.1 next.2 else next
    else (s, acc)

/-- The opening of `processText`: store the current text, extract the new
words, and append them to the pending buffer (updating
`lastProcessedLength`) when there are any. -/
def ingestNewWords (s : Session) (text : List Char) : Session :=
  let sA := { s with currentText := text }
  let newWords := extractNewWords sA text
  if 0 < newWords.length then
    { sA with
        pendingWords := sA.pendingWords ++ newWords,
        lastProcessedLength := text.length }
  else sA

/-- The trailing `if (isFinal && session.pendingWords.length > 0)` flush
block of `processText` (after the `while` loop has drained the buffer on
finals this block is unreachable, but it is modelled as written). -/
def finalFlush (isFinal : Bool) (st : Session × List Chunk) :
    Session × List Chunk :=
  let sC := st.1
  if isFinal && decide (0 < sC.pendingWords.length) then
    let remainingText := createChunk sC.pendingWords
    let hash := hashText remainingText
    if sC.spokenChunks.contains hash then
      ({ sC with pendingWords := [] }, st.2)
    else
      ({ sC with
          spokenChunks := sC.spokenChunks ++ [hash],
          sequenceNumber := sC.sequenceNumber + 1,
          pendingWords := [] },
       st.2 ++ [{ text := remainingText,
                  sequence := sC.sequenceNumber + 1, hash := hash,
                  wordCount := sC.pendingWords.length }])
  else st

/-- `UltraLowLatencyExtractor.processText(sessionId, language, text,
isFinal)` for one `sessionId:language` key. -/
def processText (s : Session) (now : ℕ) (text : List Char) (isFinal : Bool) :
    Session × List Chunk :=
  let sB := ingestNewWords s text
  finalFlush isFinal (chunkLoop now isFinal sB.pendingWords.length sB [])

/-- One transcript event fed to the ultra-low-latency extractor. -/
structure Event where
  now : ℕ
  text : List Char
  isFinal : Bool

/-- One `processText` call viewed as a state transition emitting the chunk
fingerprints. -/
def ultraStep (s : Session) (e : Event) : Session × List (List Char) :=
  let r := processText s e.now e.text e.isFinal
  (r.1, r.2.map (·.hash))

/-- The fingerprints emitted by a sequence of `processText` calls. -/
def runEmitted (s : Session) (events : List Event) : List (List Char) :=
  runEmit ultraStep s events

/-- Loop invariant for the chunk emissions, mirroring
`HybridSentenceExtractor.PlayedInv`. -/
def SpokenInv (spoken0 : List (List Char)) (st : Session × List Chunk) : Prop :=
  (st.2.map (·.hash)).Nodup ∧
  (∀ h ∈ st.2.map (·.hash), h ∉ spoken0) ∧
  (∀ h, h ∈ st.1.spokenChunks ↔ h ∈ spoken0 ∨ h ∈ st.2.map (·.hash))

end UltraLowLatencyExtractor

namespace StreamingSentenceExtractor

/-- Unicode NFD decomposition (`text.normalize('NFD')`), restricted to the
precomposed code points that occur in this development; every other character
decomposes to itself. -/
def nfdChar (c : Char) : List Char :=
  if c = 'é' then ['e', '́']
  else if c = 'É' then ['E', '́']
  else if c = 'á' then ['a', '́']
  else if c = 'ó' then ['o', '́']
  else if c = 'í' then ['i', '́']
  else if c = 'ñ' then ['n', '̃']
  else [c]

/-- `text.normalize('NFD')` over a whole string. -/
def nfd (s : List Char) : List Char :=
  s.flatMap nfdChar

/-- The combining-mark class `[̀-ͯ]` removed by the first
`replace`. -/
def isCombiningMark (c : Char) : Bool :=
  0x300 ≤ c.toNat && c.toNat ≤ 0x36f

/-- ASCII alphanumerics: the `a-z0-9` of the replace regex, both cases kept
by its `i` flag. -/
def isAsciiAlnum (c : Char) : Bool :=
  ('a' ≤ c && c ≤ 'z') || ('A' ≤ c && c ≤ 'Z') || ('0' ≤ c && c ≤ '9')

/-- Characters kept by `replace(/[^a-z0-9\s]/gi, ' ')`: ASCII alphanumerics
(the `i` flag keeps both cases) and whitespace. -/
def keptByReplace (c : Char) : Bool :=
  isAsciiAlnum c || jsWs c

/-- The character map of `replace(/[^a-z0-9\s]/gi, ' ')`. -/
def replaceChar (c : Char) : Char :=
  if keptByReplace c then c else ' '

/-- `replace(/\s+/g, ' ')`: collapse every whitespace run to one space. -/
def collapseWs (cs : List Char) : List Char :=
  match cs with
  | [] => []
  | c :: rest =>
    if jsWs c then ' ' :: collapseWs (rest.dropWhile jsWs)
    else c :: collapseWs rest
  termination_by cs.length
  decreasing_by
  · simp only [List.length_cons]
    exact Nat.lt_succ_of_le (dropWhile_length_le _ _)
  · simp only [List.length_cons]
    exact Nat.lt_succ_self _

/-- `StreamingSentenceExtractor.normalizeForCompare(text)`: NFD, strip
combining marks, lowercase, replace non-alphanumerics by spaces, collapse
whitespace, trim. -/
def normalizeForCompare (text : List Char) : List Char :=
  if text.isEmpty then []
  else
    jsTrim (collapseWs
      ((((nfd text).filter (fun c => !isCombiningMark c)).map jsToLower).map
        replaceChar))

/-- The alphanumeric tokens (maximal ASCII-alphanumeric runs) of a string
after NFD decomposition, mark stripping and lower-casing.  This is the
invariant core of `normalizeForCompare`: the normalization result is exactly
these tokens joined by single spaces. -/
def alnumRuns (cs : List Char) : List (List Char) :=
  match cs with
  | [] => []
  | c :: rest =>
    if isAsciiAlnum c then
      (c :: rest.takeWhile isAsciiAlnum) :: alnumRuns (rest.dropWhile isAsciiAlnum)
    else alnumRuns rest
  termination_by cs.length
  decreasing_by
  · simp only [List.length_cons]
    exact Nat.lt_succ_of_le (dropWhile_length_le _ _)
  · simp only [List.length_cons]
    exact Nat.lt_succ_self _

/-- The token list that determines `normalizeForCompare`. -/
def streamTokens (s : List Char) : List (List Char) :=
  alnumRuns (((nfd s).filter (fun c => !isCombiningMark c)).map jsToLower)

/-- JS `new Set(array)` iteration order: first occurrences, deduplicated. -/
def dedupKeepFirst : List (List Char) → List (List Char)
  | [] => []
  | x :: rest => x :: dedupKeepFirst (rest.filter (fun y => !(y == x)))
  termination_by l => l.length
  decreasing_by
  simp only [List.length_cons]
  exact Nat.lt_succ_of_le (List.length_filter_le _ _)

/-- `StreamingSentenceExtractor.tokenize(text)`: the token set of the
normalized text (split on the single spaces of the normalized form, keep
words longer than 1). -/
def tokenize (text : List Char) : List (List Char) :=
  let norm := normalizeForCompare text
  if norm.isEmpty then []
  else dedupKeepFirst ((splitWsRuns norm).filter (fun w => decide (1 < w.length)))

/-- `StreamingSentenceExtractor.jaccard(a, b)` on token sets, in exact
rational arithmetic. -/
def jaccard (a b : List (List Char)) : ℚ :=
  let inter := a.filter (fun t => b.contains t)
  let unionSize := a.length + b.length - inter.length
  if unionSize = 0 then 0 else (inter.length : ℚ) / (unionSize : ℚ)

/-- JS `big.includes(small)`: substring containment. -/
def containsSub (big small : List Char) : Bool :=
  small.isPrefixOf big ||
    (match big with
     | [] => false
     | _ :: rest => containsSub rest small)

/-- The sentence-ending class `[.!?؟。！]` of `extractCompleteSentences`. -/
def enderChar (c : Char) : Bool :=
  c = '.' || c = '!' || c = '?' || c = '؟' || c = '。' || c = '！'

/-- `text.match(/[^.!?؟。！]+[.!?؟。！]+/g)`: the list of maximal runs of
non-enders followed by their run of enders. -/
def matchSentenceRuns (cs : List Char) : List (List Char) :=
  match cs with
  | [] => []
  | c :: rest =>
    if enderChar c then matchSentenceRuns rest
    else
      let run1 := c :: rest.takeWhile (fun x => !enderChar x)
      let after1 := rest.dropWhile (fun x => !enderChar x)
      match after1 with
      | [] => []
      | _ :: _ =>
        (run1 ++ after1.takeWhile enderChar) ::
          matchSentenceRuns (after1.dropWhile enderChar)
  termination_by cs.length
  decreasing_by
  · simp only [List.length_cons]
    exact Nat.lt_succ_self _
  · simp only [List.length_cons]
    exact Nat.lt_succ_of_le
      (le_trans (dropWhile_length_le _ _) (dropWhile_length_le _ _))

/-- The `abbreviations` set of the constructor (same as the hybrid one). -/
def abbreviations : List (List Char) :=
  HybridSentenceExtractor.abbreviations

/-- `StreamingSentenceExtractor.isCompleteSentence(text)`: not a bare
abbreviation, at least 3 words, ends (trimmed) in `.`, `!` or `?`. -/
def isCompleteSentence (text : List Char) : Bool :=
  if abbreviations.any (fun a => a.isSuffixOf text) then false
  else if (splitWsRuns (jsTrim text)).length < 3 then false
  else
    match (jsTrim text).getLast? with
    | some c => c = '.' || c = '!' || c = '?'
    | none => false

/-- `StreamingSentenceExtractor.extractCompleteSentences(text)`. -/
def extractCompleteSentences (text : List Char) : List (List Char) :=
  if text.isEmpty then []
  else ((matchSentenceRuns text).map jsTrim).filter isCompleteSentence

/-- Per-`sessionId:language` state of the streaming extractor: the JS `Set`s
`completedSentences`/`completedNormalized` and the `lastFinalText` entry. -/
structure State where
  completedSentences : List (List Char)
  completedNormalized : List (List Char)
  lastFinalText : List Char
  deriving Repr, DecidableEq

/-- The fresh state installed on first use of a key. -/
def initState : State :=
  { completedSentences := [], completedNormalized := [], lastFinalText := [] }

/-- JS `Set.prototype.add`. -/
def addUnique (l : List (List Char)) (x : List Char) : List (List Char) :=
  if l.contains x then l else l ++ [x]

/-- The duplicate check of the `for (const sentence of sentences)` loop:
exact normalized equality, bidirectional substring containment of non-empty
normals, token-Jaccard ≥ 0.85 against every completed sentence, or fast
membership in the normalized set. -/
def isDuplicateAgainst (completedSet completedNormSet : List (List Char))
    (normalized : List Char) : Bool :=
  completedSet.any (fun completed =>
    let completedNorm := normalizeForCompare completed
    normalized == completedNorm ||
    (!normalized.isEmpty && !completedNorm.isEmpty &&
      (containsSub normalized completedNorm || containsSub completedNorm normalized)) ||
    decide (17/20 ≤ jaccard (tokenize normalized) (tokenize completedNorm))) ||
  completedNormSet.contains normalized

/-- One iteration of the sentence loop of `processTranscript`: skip
duplicates; otherwise emit the sentence and record it (trimmed) and its
normalization. -/
def sentenceStep (st : State × List (List Char)) (sentence : List Char) :
    State × List (List Char) :=
  let state := st.1
  let normalized := normalizeForCompare sentence
  if isDuplicateAgainst state.completedSentences state.completedNormalized
      normalized then st
  else
    ({ state with
        completedSentences := addUnique state.completedSentences (jsTrim sentence),
        completedNormalized := addUnique state.completedNormalized normalized },
     st.2 ++ [sentence])

/-- `StreamingSentenceExtractor.processTranscript(sessionId, language, text,
isFinal)` for one key, returning the new state and `newSentences` (the
sentences handed to TTS).  Partials and repeated finals return nothing. -/
def processTranscript (st : State) (text : List Char) (isFinal : Bool) :
    State × List (List Char) :=
  if !isFinal then (st, [])
  else if text == st.lastFinalText then (st, [])
  else
    let st1 := { st with lastFinalText := text }
    (extractCompleteSentences text).foldl sentenceStep (st1, [])

/-- One transcript event fed to the streaming extractor. -/
structure Event where
  text : List Char
  isFinal : Bool

/-- One `processTranscript` call viewed as a state transition emitting the
normalized fingerprints of its new sentences. -/
def streamStep (s : State) (e : Event) : State × List (List Char) :=
  let r := processTranscript s e.text e.isFinal
  (r.1, r.2.map normalizeForCompare)

/-- The normalized fingerprints emitted by a sequence of `processTranscript`
calls. -/
def runEmitted (s : State) (events : List Event) : List (List Char) :=
  runEmit streamStep s events

/-- Loop invariant: emitted normalized fingerprints are duplicate-free, fresh
with respect to `norm0`, and `completedNormalized` is `norm0` plus exactly
the emissions. -/
def NormInv (norm0 : List (List Char)) (st : State × List (List Char)) : Prop :=
  (st.2.map normalizeForCompare).Nodup ∧
  (∀ h ∈ st.2.map normalizeForCompare, h ∉ norm0) ∧
  (∀ h, h ∈ st.1.completedNormalized ↔
    h ∈ norm0 ∨ h ∈ st.2.map normalizeForCompare)

end StreamingSentenceExtractor

namespace Websocket

/-- A listener record stored in `session.listeners` (`websocket.js`,
`handleListenerJoin`). -/
structure Listener where
  lang : List Char
  voice : Option (List Char)
  joinedAt : ℕ
  deriving Repr, DecidableEq

/-- Per-session metrics (`handleSpeakerJoin`). -/
structure Metrics where
  startTime : ℕ
  translations : ℕ
  totalLatency : ℕ
  deriving Repr, DecidableEq

/-- A session record of the module-level `sessions` map of `websocket.js`,
keyed by the 4-character code.  Listeners are keyed by socket id. -/
structure Session where
  speakerId : List Char
  sourceLang : Option (List Char)
  targetLangs : List (List Char)
  listeners : List (List Char × Listener)
  metrics : Metrics
  deriving Repr, DecidableEq

/-- JS `Map.prototype.set`: update in place if the key exists, else append. -/
def mapSet {β : Type} (m : List (List Char × β)) (k : List Char) (v : β) :
    List (List Char × β) :=
  if m.any (fun p => p.1 == k) then
    m.map (fun p => if p.1 == k then (k, v) else p)
  else m ++ [(k, v)]

/-- JS `Map.prototype.get` as an `Option`. -/
def mapGet {β : Type} (m : List (List Char × β)) (k : List Char) : Option β :=
  (m.find? (fun p => p.1 == k)).map (·.2)

/-- `(sessionCode || '').trim().toUpperCase()` (ASCII upper-casing; codes are
`[A-Z0-9]{4}`). -/
def normalizeCode (sessionCode : List Char) : List Char :=
  (jsTrim sessionCode).map Char.toUpper

/-- The `code:lang` key used by the per-(session, language) processors. -/
def sessionKey (code lang : List Char) : List Char :=
  code ++ ':' :: lang

/-- The server-side state touched by speaker joins: the `sessions` registry,
the per-`code:lang` states of the continuous stream processor, and the open
persistent TTS channels of `webSocketTTS` (its `connections` keys).  The
transport side effects (room joins, `joined`/`session-started` emits) carry
no server state and are not modelled. -/
structure World where
  sessions : List (List Char × Session)
  continuousSessions : List (List Char × ContinuousStreamProcessor.Session)
  ttsConnections : List (List Char)
  deriving Repr, DecidableEq

/-- `handleSpeakerJoin({sessionCode, sourceLang, targetLangs,
sourceLanguageHint})` from `websocket.js`: normalize the code, ignore codes
that are not exactly 4 characters, and install a fresh session record via
`sessions.set(code, session)`.  Nothing else in the handler reads or writes
the prior session, the segmentation state, or the TTS channels. -/
def handleSpeakerJoin (w : World) (socketId sessionCode : List Char)
    (sourceLang : Option (List Char)) (targetLangs : Option (List (List Char)))
    (sourceLanguageHint : Option (List Char)) (now : ℕ) : World :=
  let code := normalizeCode sessionCode
  if code.length ≠ 4 then w
  else
    let resolvedSource :=
      match sourceLang with
      | some s => some s
      | none => sourceLanguageHint
    let resolvedTargets := targetLangs.getD []
    let session : Session :=
      { speakerId := socketId, sourceLang := resolvedSource,
        targetLangs := resolvedTargets, listeners := [],
        metrics := { startTime := now, translations := 0, totalLatency := 0 } }
    { w with sessions := mapSet w.sessions code session }

/-- The `audio-chunk` fan-out installed by `initOptimizedSocket` in
continuous-streaming mode (`websocket.js` lines 49–68): the event payload
carries only `{audio, language, isFinal}` — no session code — and the handler
iterates over **all** sessions, sending the chunk to every connected listener
whose current language matches.  Returns the socket ids receiving the
chunk, in iteration order. -/
def audioChunkFanout (sessions : List (List Char × Session))
    (chunkLang : List Char) : List (List Char) :=
  sessions.flatMap
    (fun p => ((p.2.listeners.filter (fun l => l.2.lang == chunkLang)).map (·.1)))

/-- The `translation-update` fan-out of `processIncoming` in
continuous-streaming mode (`websocket.js` lines 185–200): the session is
looked up by the transcript's code and only its listeners with a matching
language receive the update. -/
def translationUpdateFanout (sessions : List (List Char × Session))
    (sessionCode lang : List Char) : List (List Char) :=
  match mapGet sessions (normalizeCode sessionCode) with
  | none => []
  | some session =>
    (session.listeners.filter (fun l => l.2.lang == lang)).map (·.1)

end Websocket

/-- C9: `processText` keeps a character cursor (`lastSentLength`) into the
cumulative translated text; `shouldSend` is true exactly when the number of
characters beyond the cursor is at least `MIN_NEW_CHARS = 3` (or `isFinal`)
and the suffix past the cursor is non-blank; in that case the forwarded text
is verbatim that suffix and the cursor advances to the full text length. -/
theorem ContinuousStreamProcessor.processText_delta_spec
    (s : ContinuousStreamProcessor.Session) (now : ℕ) (text : List Char)
    (isFinal : Bool) :
    (ContinuousStreamProcessor.processText s now text isFinal).2.shouldSend =
      ((decide ((3 : ℤ) ≤ (text.length : ℤ) - (s.lastSentLength : ℤ)) || isFinal)
        && decide (0 < (jsTrim (text.drop s.lastSentLength)).length)) ∧
    ((ContinuousStreamProcessor.processText s now text isFinal).2.shouldSend = true →
      (ContinuousStreamProcessor.processText s now text isFinal).2.textToSend =
        text.drop s.lastSentLength ∧
      (ContinuousStreamProcessor.processText s now text isFinal).1.lastSentLength =
        text.length) := by
  unfold ContinuousStreamProcessor.processText
  by_cases h1 : (text.length : ℤ) - (s.lastSentLength : ℤ) ≥
      ContinuousStreamProcessor.MIN_NEW_CHARS ∨ isFinal = true
  · rw [if_pos h1]
    by_cases h2 : 0 < (jsTrim (text.drop s.lastSentLength)).length
    · rw [if_pos h2]
      refine ⟨?_, fun _ => ⟨rfl, rfl⟩⟩
      simp only [decide_eq_true_eq] at *
      have : (decide ((3 : ℤ) ≤ (text.length : ℤ) - (s.lastSentLength : ℤ)) || isFinal)
          = true := by
        rcases h1 with h | h
        · simp [ge_iff_le] at h ⊢
          exact Or.inl h
        · simp [h]
      simp [this, h2]
    · rw [if_neg h2]
      refine ⟨?_, fun hcontra => by simp at hcontra⟩
      simp [h2]
  · rw [if_neg h1]
    refine ⟨?_, fun hcontra => by simp at hcontra⟩
    push_neg at h1
    obtain ⟨ha, hb⟩ := h1
    have ha' : ¬ ((3 : ℤ) ≤ (text.length : ℤ) - (s.lastSentLength : ℤ)) :=
      not_le.mpr ha
    simp [ha', hb]

/-- C9 witness: the theorem applied at a concrete input. -/
theorem ContinuousStreamProcessor.processText_delta_spec_witness :
    ((ContinuousStreamProcessor.processText
        { lastSentLength := 5, fullText := [], lastUpdateTime := 0 }
        10 "Hola amigos".data false).2.shouldSend = true →
      (ContinuousStreamProcessor.processText
        { lastSentLength := 5, fullText := [], lastUpdateTime := 0 }
        10 "Hola amigos".data false).2.textToSend =
          "Hola amigos".data.drop 5 ∧
      (ContinuousStreamProcessor.processText
        { lastSentLength := 5, fullText := [], lastUpdateTime := 0 }
        10 "Hola amigos".data false).1.lastSentLength =
          "Hola amigos".data.length) :=
  (ContinuousStreamProcessor.processText_delta_spec
    { lastSentLength := 5, fullText := [], lastUpdateTime := 0 }
    10 "Hola amigos".data false).2

/-- C10: when the new cumulative text is strictly shorter than the number of
characters already sent (a shrinking revision), `processText` returns
`shouldSend = false` with an empty `textToSend` — even when `isFinal = true` —
and leaves the sent-length cursor unchanged, so the revision is silently lost. -/
theorem ContinuousStreamProcessor.processText_shrinking_revision
    (s : ContinuousStreamProcessor.Session) (now : ℕ) (text : List Char)
    (isFinal : Bool) (h : text.length < s.lastSentLength) :
    (ContinuousStreamProcessor.processText s now text isFinal).2.shouldSend = false ∧
    (ContinuousStreamProcessor.processText s now text isFinal).2.textToSend = [] ∧
    (ContinuousStreamProcessor.processText s now text isFinal).1.lastSentLength =
      s.lastSentLength := by
  have hdrop : text.drop s.lastSentLength = [] :=
    List.drop_eq_nil_of_le (Nat.le_of_lt h)
  unfold ContinuousStreamProcessor.processText
  by_cases h1 : (text.length : ℤ) - (s.lastSentLength : ℤ) ≥
      ContinuousStreamProcessor.MIN_NEW_CHARS ∨ isFinal = true
  · rw [if_pos h1]
    have h2 : ¬ 0 < (jsTrim (text.drop s.lastSentLength)).length := by
      rw [hdrop]; decide
    rw [if_neg h2]
    exact ⟨rfl, hdrop, rfl⟩
  · rw [if_neg h1]
    exact ⟨rfl, rfl, rfl⟩

/-- C10 witness: a concrete shrinking revision on a final event. -/
theorem ContinuousStreamProcessor.processText_shrinking_revision_witness :
    "Hola".data.length <
      (ContinuousStreamProcessor.Session.mk 11 "Hola amigos".data 0).lastSentLength ∧
    (ContinuousStreamProcessor.processText
        (ContinuousStreamProcessor.Session.mk 11 "Hola amigos".data 0)
        10 "Hola".data true).2.shouldSend = false ∧
    (ContinuousStreamProcessor.processText
        (ContinuousStreamProcessor.Session.mk 11 "Hola amigos".data 0)
        10 "Hola".data true).2.textToSend = [] ∧
    (ContinuousStreamProcessor.processText
        (ContinuousStreamProcessor.Session.mk 11 "Hola amigos".data 0)
        10 "Hola".data true).1.lastSentLength =
      (ContinuousStreamProcessor.Session.mk 11 "Hola amigos".data 0).lastSentLength :=
  ⟨by decide,
   ContinuousStreamProcessor.processText_shrinking_revision
     (ContinuousStreamProcessor.Session.mk 11 "Hola amigos".data 0)
     10 "Hola".data true (by decide)⟩

/-- C5: the adaptive rate is the base rate 1.0 at or below the queue
threshold, and `min (1 + 0.05·excess) maxSpeed` above it; it always lies in
`[1, maxSpeed]`. -/
theorem EnhancedTTS.calculateAdaptiveSpeed_spec (cfg : EnhancedTTS.Config) (d : ℕ)
    (hbase : cfg.baseSpeed = 1) (hmax : 1 ≤ cfg.maxSpeed) :
    (d ≤ cfg.queueThreshold → EnhancedTTS.calculateAdaptiveSpeed cfg d = 1) ∧
    (cfg.queueThreshold < d →
      EnhancedTTS.calculateAdaptiveSpeed cfg d =
        min (1 + ((d - cfg.queueThreshold : ℕ) : ℚ) * (1/20)) cfg.maxSpeed) ∧
    1 ≤ EnhancedTTS.calculateAdaptiveSpeed cfg d ∧
    EnhancedTTS.calculateAdaptiveSpeed cfg d ≤ cfg.maxSpeed := by
  unfold EnhancedTTS.calculateAdaptiveSpeed
  by_cases hd : d ≤ cfg.queueThreshold
  · rw [if_pos hd]
    exact ⟨fun _ => hbase, fun hlt => absurd hd (not_le.mpr hlt),
           le_of_eq hbase.symm, by rw [hbase]; exact hmax⟩
  · rw [if_neg hd]
    have hx : (0 : ℚ) ≤ ((d - cfg.queueThreshold : ℕ) : ℚ) * (1/20) := by positivity
    refine ⟨fun hle => absurd hle hd, fun _ => by rw [hbase], ?_, min_le_right _ _⟩
    refine le_min ?_ hmax
    rw [hbase]
    linarith

/-- C5 witness: at the default configuration and queue depth 7 the bounds hold
and the rate is `1 + 4·0.05 = 1.2`. -/
theorem EnhancedTTS.calculateAdaptiveSpeed_spec_witness :
    EnhancedTTS.defaultConfig.baseSpeed = 1 ∧
    (1 : ℚ) ≤ EnhancedTTS.defaultConfig.maxSpeed ∧
    (1 ≤ EnhancedTTS.calculateAdaptiveSpeed EnhancedTTS.defaultConfig 7 ∧
     EnhancedTTS.calculateAdaptiveSpeed EnhancedTTS.defaultConfig 7 ≤
       EnhancedTTS.defaultConfig.maxSpeed) ∧
    EnhancedTTS.calculateAdaptiveSpeed EnhancedTTS.defaultConfig 7 = 6/5 :=
  ⟨rfl, by norm_num [EnhancedTTS.defaultConfig],
   (EnhancedTTS.calculateAdaptiveSpeed_spec EnhancedTTS.defaultConfig 7 rfl
     (by norm_num [EnhancedTTS.defaultConfig])).2.2,
   by norm_num [EnhancedTTS.calculateAdaptiveSpeed, EnhancedTTS.defaultConfig]⟩

/-- C6: whenever the queue length exceeds `2 × criticalQueueSize` (with a
positive critical size), the monitor removes exactly the oldest
`length − criticalQueueSize` entries from the front, rejecting each of them,
and preserves the most recent `criticalQueueSize` entries; in particular the
most recent entry is never dropped. -/
theorem EnhancedTTS.queueMonitorStep_overflow {α : Type} (cfg : EnhancedTTS.Config)
    (q : List α) (hc : 0 < cfg.criticalQueueSize)
    (h : cfg.criticalQueueSize * 2 < q.length) :
    (EnhancedTTS.queueMonitorStep cfg q).1 =
      q.drop (q.length - cfg.criticalQueueSize) ∧
    (EnhancedTTS.queueMonitorStep cfg q).2 =
      q.take (q.length - cfg.criticalQueueSize) ∧
    (EnhancedTTS.queueMonitorStep cfg q).2.length =
      q.length - cfg.criticalQueueSize ∧
    (EnhancedTTS.queueMonitorStep cfg q).1.length = cfg.criticalQueueSize ∧
    q = (EnhancedTTS.queueMonitorStep cfg q).2 ++
        (EnhancedTTS.queueMonitorStep cfg q).1 ∧
    (∀ x, q.getLast? = some x → x ∈ (EnhancedTTS.queueMonitorStep cfg q).1) := by
  have hcle : cfg.criticalQueueSize ≤ q.length :=
    le_of_lt (lt_of_le_of_lt (Nat.le_mul_of_pos_right _ (by norm_num)) h)
  have houter : q.length > cfg.criticalQueueSize :=
    lt_of_le_of_lt (Nat.le_mul_of_pos_right _ (by norm_num)) h
  have hinner : q.length > cfg.criticalQueueSize * 2 := h
  unfold EnhancedTTS.queueMonitorStep
  rw [if_pos houter, if_pos hinner]
  have hdroplen : (q.drop (q.length - cfg.criticalQueueSize)).length =
      cfg.criticalQueueSize := by
    rw [List.length_drop]
    omega
  have htakelen : (q.take (q.length - cfg.criticalQueueSize)).length =
      q.length - cfg.criticalQueueSize := by
    rw [List.length_take]
    omega
  refine ⟨rfl, rfl, htakelen, hdroplen, (List.take_append_drop _ q).symm, ?_⟩
  intro x hx
  have hne : q.drop (q.length - cfg.criticalQueueSize) ≠ [] := by
    intro hnil
    rw [hnil] at hdroplen
    simp at hdroplen
    omega
  have hq : q = q.take (q.length - cfg.criticalQueueSize) ++
      q.drop (q.length - cfg.criticalQueueSize) :=
    (List.take_append_drop _ q).symm
  rw [hq, List.getLast?_append_of_ne_nil _ hne] at hx
  have hx' : x ∈ (q.drop (q.length - cfg.criticalQueueSize)).getLast? := hx
  obtain ⟨hlast, hxeq⟩ := List.mem_getLast?_eq_getLast hx'
  rw [hxeq]
  exact List.getLast_mem hlast

/-- C6 witness: a queue of 21 entries with critical size 10 keeps the last 10
and rejects the first 11. -/
theorem EnhancedTTS.queueMonitorStep_overflow_witness :
    0 < EnhancedTTS.defaultConfig.criticalQueueSize ∧
    EnhancedTTS.defaultConfig.criticalQueueSize * 2 < (List.range 21).length ∧
    (EnhancedTTS.queueMonitorStep EnhancedTTS.defaultConfig (List.range 21)).1.length =
      EnhancedTTS.defaultConfig.criticalQueueSize ∧
    (∀ x, (List.range 21).getLast? = some x →
      x ∈ (EnhancedTTS.queueMonitorStep EnhancedTTS.defaultConfig (List.range 21)).1) :=
  ⟨by decide, by decide,
   (EnhancedTTS.queueMonitorStep_overflow EnhancedTTS.defaultConfig (List.range 21)
      (by decide) (by decide)).2.2.2.1,
   (EnhancedTTS.queueMonitorStep_overflow EnhancedTTS.defaultConfig (List.range 21)
      (by decide) (by decide)).2.2.2.2.2⟩

/-- Generic at-most-once lemma: if every step's emissions are duplicate-free,
fresh with respect to a played set, and exactly extend that set, then a whole
run never repeats an emission and never emits anything already played. -/
theorem runEmit_nodup {σ ε : Type} (step : σ → ε → σ × List (List Char))
    (pl : σ → List (List Char))
    (hstep : ∀ s e, (step s e).2.Nodup ∧
      (∀ h ∈ (step s e).2, h ∉ pl s) ∧
      (∀ h, h ∈ pl (step s e).1 ↔ h ∈ pl s ∨ h ∈ (step s e).2)) :
    ∀ (events : List ε) (s : σ),
      (runEmit step s events).Nodup ∧
      ∀ h ∈ runEmit step s events, h ∉ pl s := by
  intro events
  induction events with
  | nil =>
    intro s
    refine ⟨by simp [runEmit], ?_⟩
    intro h hm
    simp [runEmit] at hm
  | cons e es ih =>
    intro s
    obtain ⟨hnd, hfresh, hupd⟩ := hstep s e
    obtain ⟨ihnd, ihfresh⟩ := ih (step s e).1
    have hre : runEmit step s (e :: es) =
        (step s e).2 ++ runEmit step (step s e).1 es := rfl
    constructor
    · rw [hre]
      refine hnd.append ihnd ?_
      intro h h1 h2
      exact ihfresh h h2 ((hupd h).mpr (Or.inr h1))
    · intro h hmem hps
      rw [hre] at hmem
      rcases List.mem_append.mp hmem with h1 | h2
      · exact hfresh h h1 hps
      · exact ihfresh h h2 ((hupd h).mpr (Or.inl hps))

/-- Bridge between the default `BEq (List Char)` instance used by
`List.count` in our statements and the `DecidableEq`-derived instance used by
Mathlib's `nodup_iff_count_le_one`. -/
theorem count_le_one_of_nodup (l : List (List Char)) (h : l.Nodup)
    (a : List Char) : l.count a ≤ 1 := by
  induction l with
  | nil => simp
  | cons x xs ih =>
    rw [List.count_cons]
    rcases List.nodup_cons.mp h with ⟨hx, hxs⟩
    by_cases hxa : x = a
    · subst hxa
      have hz : xs.count x = 0 := List.count_eq_zero.mpr hx
      simp [hz]
    · have hbeq : (x == a) = false := by simp [hxa]
      simp only [hbeq, Bool.false_eq_true, if_false, Nat.add_zero]
      exact ih hxs

namespace HybridSentenceExtractor

/-- Each iteration of the stability loop of `processPartial` preserves the
played-set invariant. -/
theorem processSentenceStep_inv (p : Params) (now : ℕ) (fin : Bool)
    (played0 : List (List Char)) (st : Session × List StableSentence)
    (sentence : List Char) (hinv : PlayedInv played0 st) :
    PlayedInv played0 (processSentenceStep p now fin st sentence) := by
  obtain ⟨hnd, hfr, hiff⟩ := hinv
  unfold processSentenceStep
  by_cases hc : st.1.playedSentences.contains (hashSentence sentence) = true
  · rw [if_pos hc]
    exact ⟨hnd, hfr, hiff⟩
  · rw [if_neg hc]
    have hcmem : hashSentence sentence ∉ st.1.playedSentences := by
      intro hm
      exact hc (by simpa [List.contains] using hm)
    have hnotmap : hashSentence sentence ∉ st.2.map (·.hash) := fun hmm =>
      hcmem ((hiff _).mpr (Or.inr hmm))
    have hnotpl0 : hashSentence sentence ∉ played0 := fun hp0 =>
      hcmem ((hiff _).mpr (Or.inl hp0))
    cases hfind : historyFind st.1.sentenceHistory sentence with
    | none =>
      exact ⟨hnd, hfr, hiff⟩
    | some history =>
      dsimp only
      split
      · refine ⟨?_, ?_, ?_⟩
        · dsimp only
          rw [List.map_append]
          rw [List.nodup_append]
          refine ⟨hnd, by simp, ?_⟩
          intro a ha hb
          simp only [List.map_cons, List.map_nil, List.mem_singleton] at hb
          subst hb
          exact hnotmap ha
        · dsimp only
          intro h hmem
          rw [List.map_append] at hmem
          rcases List.mem_append.mp hmem with h1 | h1
          · exact hfr h h1
          · simp only [List.map_cons, List.map_nil, List.mem_singleton] at h1
            subst h1
            exact hnotpl0
        · dsimp only
          intro h
          rw [List.map_append, List.mem_append, List.mem_append]
          simp only [List.map_cons, List.map_nil, List.mem_singleton]
          rw [hiff h]
          tauto
      · exact ⟨hnd, hfr, hiff⟩

/-- The stability loop preserves the played-set invariant. -/
theorem stabilityFoldl_inv (p : Params) (now : ℕ) (fin : Bool)
    (played0 : List (List Char)) :
    ∀ (sentences : List (List Char)) (st : Session × List StableSentence),
      PlayedInv played0 st →
      PlayedInv played0 (sentences.foldl (processSentenceStep p now fin) st) := by
  intro sentences
  induction sentences with
  | nil => intro st h; exact h
  | cons sen rest ih =>
    intro st h
    simp only [List.foldl_cons]
    exact ih _ (processSentenceStep_inv p now fin played0 st sen h)

/-- `preprocess` (cleanup + partial counter) never touches the played set. -/
theorem preprocess_played (s : Session) (now : ℕ) :
    (preprocess s now).playedSentences = s.playedSentences := by
  unfold preprocess
  dsimp only
  split <;> rfl

/-- A single `processPartial` call: its emitted fingerprints are
duplicate-free, none of them was played before the call, and the played set
after the call is the played set before plus exactly the emitted
fingerprints. -/
theorem processPartial_inv (p : Params) (s : Session) (now : ℕ)
    (text : List Char) (fin : Bool) :
    PlayedInv s.playedSentences
      ((processPartial p s now text fin).1,
       (processPartial p s now text fin).2.stableSentences) := by
  have hstart : PlayedInv s.playedSentences (preprocess s now, []) := by
    refine ⟨by simp, by simp, ?_⟩
    intro h
    rw [preprocess_played]
    simp
  have hfold := stabilityFoldl_inv p now fin s.playedSentences
    (if p.phraseMode then extractPhrases text else extractSentences text)
    (preprocess s now, []) hstart
  unfold processPartial
  dsimp only
  exact hfold

/-- `hybridStep` satisfies the hypotheses of the generic at-most-once lemma. -/
theorem hybridStep_spec (s : Session) (e : Event) :
    (hybridStep s e).2.Nodup ∧
    (∀ h ∈ (hybridStep s e).2, h ∉ s.playedSentences) ∧
    (∀ h, h ∈ (hybridStep s e).1.playedSentences ↔
      h ∈ s.playedSentences ∨ h ∈ (hybridStep s e).2) :=
  processPartial_inv e.params s e.now e.text e.isFinal

/-- Hybrid half of C1: over any event sequence from a fresh session, each
fingerprint is emitted at most once. -/
theorem hybrid_at_most_once (t0 : ℕ) (events : List Event) (fp : List Char) :
    (runEmitted (initSession t0) events).count fp ≤ 1 := by
  have h := runEmit_nodup hybridStep (fun s => s.playedSentences)
    (fun s e => hybridStep_spec s e) events (initSession t0)
  exact count_le_one_of_nodup _ h.1 fp

end HybridSentenceExtractor

namespace UltraLowLatencyExtractor

/-- One iteration body of the chunk loop preserves the spoken-set
invariant. -/
theorem chunkIter_inv (now : ℕ) (spoken0 : List (List Char)) (s : Session)
    (acc : List Chunk) (hinv : SpokenInv spoken0 (s, acc)) :
    SpokenInv spoken0 (chunkIter now s acc) := by
  obtain ⟨hnd, hfr, hiff⟩ := hinv
  unfold chunkIter
  dsimp only
  split
  · exact ⟨hnd, hfr, hiff⟩
  · rename_i hdup
    have hcmem : hashText (createChunk
        (s.pendingWords.take (findChunkSize s.pendingWords))) ∉ s.spokenChunks := by
      intro hm
      exact hdup (by simpa [List.contains] using hm)
    have hnotmap : hashText (createChunk
        (s.pendingWords.take (findChunkSize s.pendingWords))) ∉ acc.map (·.hash) :=
      fun hmm => hcmem ((hiff _).mpr (Or.inr hmm))
    have hnotsp0 : hashText (createChunk
        (s.pendingWords.take (findChunkSize s.pendingWords))) ∉ spoken0 :=
      fun hp0 => hcmem ((hiff _).mpr (Or.inl hp0))
    refine ⟨?_, ?_, ?_⟩
    · dsimp only
      rw [List.map_append, List.nodup_append]
      refine ⟨hnd, by simp, ?_⟩
      intro a ha hb
      simp only [List.map_cons, List.map_nil, List.mem_singleton] at hb
      subst hb
      exact hnotmap ha
    · dsimp only
      intro h hmem
      rw [List.map_append] at hmem
      rcases List.mem_append.mp hmem with h1 | h1
      · exact hfr h h1
      · simp only [List.map_cons, List.map_nil, List.mem_singleton] at h1
        subst h1
        exact hnotsp0
    · dsimp only
      intro h
      rw [List.map_append, List.mem_append, List.mem_append]
      simp only [List.map_cons, List.map_nil, List.mem_singleton]
      rw [hiff h]
      tauto

/-- The final-flush block preserves the spoken-set invariant. -/
theorem finalFlush_inv (fin : Bool) (spoken0 : List (List Char))
    (st : Session × List Chunk) (hinv : SpokenInv spoken0 st) :
    SpokenInv spoken0 (finalFlush fin st) := by
  obtain ⟨hnd, hfr, hiff⟩ := hinv
  unfold finalFlush
  dsimp only
  split
  · split
    · exact ⟨hnd, hfr, hiff⟩
    · rename_i hdup
      have hcmem : hashText (createChunk st.1.pendingWords) ∉ st.1.spokenChunks := by
        intro hm
        exact hdup (by simpa [List.contains] using hm)
      have hnotmap : hashText (createChunk st.1.pendingWords) ∉ st.2.map (·.hash) :=
        fun hmm => hcmem ((hiff _).mpr (Or.inr hmm))
      have hnotsp0 : hashText (createChunk st.1.pendingWords) ∉ spoken0 :=
        fun hp0 => hcmem ((hiff _).mpr (Or.inl hp0))
      refine ⟨?_, ?_, ?_⟩
      · dsimp only
        rw [List.map_append, List.nodup_append]
        refine ⟨hnd, by simp, ?_⟩
        intro a ha hb
        simp only [List.map_cons, List.map_nil, List.mem_singleton] at hb
        subst hb
        exact hnotmap ha
      · dsimp only
        intro h hmem
        rw [List.map_append] at hmem
        rcases List.mem_append.mp hmem with h1 | h1
        · exact hfr h h1
        · simp only [List.map_cons, List.map_nil, List.mem_singleton] at h1
          subst h1
          exact hnotsp0
      · dsimp only
        intro h
        rw [List.map_append, List.mem_append, List.mem_append]
        simp only [List.map_cons, List.map_nil, List.mem_singleton]
        rw [hiff h]
        tauto
  · exact ⟨hnd, hfr, hiff⟩

/-- The chunk-generation loop preserves the spoken-set invariant. -/
theorem chunkLoop_inv (now : ℕ) (fin : Bool) (spoken0 : List (List Char)) :
    ∀ (fuel : ℕ) (s : Session) (acc : List Chunk),
      SpokenInv spoken0 (s, acc) →
      SpokenInv spoken0 (chunkLoop now fin fuel s acc) := by
  intro fuel
  induction fuel with
  | zero => intro s acc h; exact h
  | succ fuel ih =>
    intro s acc h
    rw [chunkLoop]
    split
    · have hnext := chunkIter_inv now spoken0 s acc h
      split
      · exact ih _ _ hnext
      · exact hnext
    · exact h

/-- `ingestNewWords` never touches the spoken set. -/
theorem ingestNewWords_spoken (s : Session) (text : List Char) :
    (ingestNewWords s text).spokenChunks = s.spokenChunks := by
  unfold ingestNewWords
  dsimp only
  split <;> rfl

/-- A single `processText` call: its emitted fingerprints are duplicate-free,
none was in the spoken set before the call, and the spoken set afterwards is
the one before plus exactly the emitted fingerprints. -/
theorem processText_inv (s : Session) (now : ℕ) (text : List Char)
    (fin : Bool) :
    SpokenInv s.spokenChunks
      ((processText s now text fin).1, (processText s now text fin).2) := by
  have hstart : SpokenInv s.spokenChunks (ingestNewWords s text, []) := by
    refine ⟨by simp, by simp, ?_⟩
    intro h
    rw [ingestNewWords_spoken]
    simp
  have hloop := chunkLoop_inv now fin s.spokenChunks
    (ingestNewWords s text).pendingWords.length (ingestNewWords s text) [] hstart
  have hflush := finalFlush_inv fin s.spokenChunks _ hloop
  unfold processText
  dsimp only
  exact hflush

/-- `ultraStep` satisfies the hypotheses of the generic at-most-once lemma. -/
theorem ultraStep_spec (s : Session) (e : Event) :
    (ultraStep s e).2.Nodup ∧
    (∀ h ∈ (ultraStep s e).2, h ∉ s.spokenChunks) ∧
    (∀ h, h ∈ (ultraStep s e).1.spokenChunks ↔
      h ∈ s.spokenChunks ∨ h ∈ (ultraStep s e).2) :=
  processText_inv s e.now e.text e.isFinal

/-- Ultra-low-latency half of C1: over any event sequence from a fresh
session, each fingerprint is emitted at most once. -/
theorem ultra_at_most_once (t0 : ℕ) (events : List Event) (fp : List Char) :
    (runEmitted (initSession t0) events).count fp ≤ 1 := by
  have h := runEmit_nodup ultraStep (fun s => s.spokenChunks)
    (fun s e => ultraStep_spec s e) events (initSession t0)
  exact count_le_one_of_nodup _ h.1 fp

end UltraLowLatencyExtractor

namespace StreamingSentenceExtractor

/-- Membership after a JS `Set.add`. -/
theorem mem_addUnique (l : List (List Char)) (x h : List Char) :
    h ∈ addUnique l x ↔ h ∈ l ∨ h = x := by
  unfold addUnique
  split
  · rename_i hc
    have hx : x ∈ l := by simpa [List.contains] using hc
    constructor
    · exact Or.inl
    · rintro (hl | rfl)
      · exact hl
      · exact hx
  · simp [List.mem_append]

/-- One iteration of the sentence loop preserves the normalized-set
invariant. -/
theorem sentenceStep_inv (norm0 : List (List Char))
    (st : State × List (List Char)) (sentence : List Char)
    (hinv : NormInv norm0 st) : NormInv norm0 (sentenceStep st sentence) := by
  obtain ⟨hnd, hfr, hiff⟩ := hinv
  unfold sentenceStep
  dsimp only
  split
  · exact ⟨hnd, hfr, hiff⟩
  · rename_i hdup
    have hcont : st.1.completedNormalized.contains (normalizeForCompare sentence)
        = false := by
      rcases Bool.or_eq_false_iff.mp (Bool.eq_false_iff.mpr hdup) with ⟨_, h2⟩
      exact h2
    have hcmem : normalizeForCompare sentence ∉ st.1.completedNormalized := by
      intro hm
      rw [show st.1.completedNormalized.contains (normalizeForCompare sentence)
          = true by simpa [List.contains] using hm] at hcont
      cases hcont
    have hnotmap : normalizeForCompare sentence ∉ st.2.map normalizeForCompare :=
      fun hmm => hcmem ((hiff _).mpr (Or.inr hmm))
    have hnotn0 : normalizeForCompare sentence ∉ norm0 :=
      fun hp0 => hcmem ((hiff _).mpr (Or.inl hp0))
    refine ⟨?_, ?_, ?_⟩
    · dsimp only
      rw [List.map_append, List.nodup_append]
      refine ⟨hnd, by simp, ?_⟩
      intro a ha hb
      simp only [List.map_cons, List.map_nil, List.mem_singleton] at hb
      subst hb
      exact hnotmap ha
    · dsimp only
      intro h hmem
      rw [List.map_append] at hmem
      rcases List.mem_append.mp hmem with h1 | h1
      · exact hfr h h1
      · simp only [List.map_cons, List.map_nil, List.mem_singleton] at h1
        subst h1
        exact hnotn0
    · dsimp only
      intro h
      rw [List.map_append, List.mem_append]
      simp only [List.map_cons, List.map_nil, List.mem_singleton]
      rw [mem_addUnique, hiff h]
      tauto

/-- The sentence loop preserves the normalized-set invariant. -/
theorem sentenceFoldl_inv (norm0 : List (List Char)) :
    ∀ (sentences : List (List Char)) (st : State × List (List Char)),
      NormInv norm0 st →
      NormInv norm0 (sentences.foldl sentenceStep st) := by
  intro sentences
  induction sentences with
  | nil => intro st h; exact h
  | cons sen rest ih =>
    intro st h
    simp only [List.foldl_cons]
    exact ih _ (sentenceStep_inv norm0 st sen h)

/-- A single `processTranscript` call: its emitted normalized fingerprints
are duplicate-free, none was in the normalized set before the call, and the
normalized set afterwards is the one before plus exactly the emissions. -/
theorem processTranscript_inv (s : State) (text : List Char) (fin : Bool) :
    NormInv s.completedNormalized
      ((processTranscript s text fin).1, (processTranscript s text fin).2) := by
  unfold processTranscript
  split
  · exact ⟨by simp, by simp, fun h => by simp⟩
  · split
    · exact ⟨by simp, by simp, fun h => by simp⟩
    · have hstart : NormInv s.completedNormalized
          ({ s with lastFinalText := text }, []) :=
        ⟨by simp, by simp, fun h => by simp⟩
      exact sentenceFoldl_inv s.completedNormalized (extractCompleteSentences text) _ hstart

/-- `streamStep` satisfies the hypotheses of the generic at-most-once
lemma. -/
theorem streamStep_spec (s : State) (e : Event) :
    (streamStep s e).2.Nodup ∧
    (∀ h ∈ (streamStep s e).2, h ∉ s.completedNormalized) ∧
    (∀ h, h ∈ (streamStep s e).1.completedNormalized ↔
      h ∈ s.completedNormalized ∨ h ∈ (streamStep s e).2) :=
  processTranscript_inv s e.text e.isFinal

/-- Streaming half of C1: over any event sequence from a fresh state, each
normalized fingerprint is voiced at most once. -/
theorem streaming_at_most_once (events : List Event) (fp : List Char) :
    (runEmitted initState events).count fp ≤ 1 := by
  have h := runEmit_nodup streamStep (fun s => s.completedNormalized)
    (fun s e => streamStep_spec s e) events initState
  exact count_le_one_of_nodup _ h.1 fp

end StreamingSentenceExtractor

/-- C3: because `detectRevisions` compares `history.count` against the
never-assigned field `this.STABILITY_THRESHOLD` (JS `count < undefined`,
always false), the revision-pruning branch can never fire: `detectRevisions`
returns the candidate table unchanged for every input — candidates absent
from the current text for more than a second and below the intended
threshold are never pruned, contrary to the claim. -/
theorem HybridSentenceExtractor.detectRevisions_never_prunes
    (hist : List (List Char × HybridSentenceExtractor.SentenceHistory))
    (currentSentences : List (List Char)) (now : ℕ) :
    HybridSentenceExtractor.detectRevisions hist currentSentences now = hist := by
  unfold HybridSentenceExtractor.detectRevisions
    HybridSentenceExtractor.countBelowStabilityThreshold
  simp

namespace Websocket

/-- `find?` over the in-place update performed by `mapSet` when the key is
present. -/
theorem find?_mapSet_update {β : Type} (k : List Char) (v : β) :
    ∀ m : List (List Char × β),
      ((m.map (fun p => if p.1 == k then (k, v) else p)).find?
          (fun p => p.1 == k)) =
        if m.any (fun p => p.1 == k) then some (k, v) else none := by
  intro m
  induction m with
  | nil => simp
  | cons p rest ih =>
    by_cases hp : (p.1 == k) = true
    · rw [List.map_cons, if_pos hp, List.find?_cons, List.any_cons, hp]
      simp
    · rw [List.map_cons, if_neg hp, List.find?_cons, List.any_cons]
      have hfalse : (p.1 == k) = false := Bool.eq_false_iff.mpr hp
      simp only [hfalse, Bool.false_or]
      exact ih

/-- After `Map.set`, `Map.get` returns the stored value. -/
theorem mapGet_mapSet {β : Type} (m : List (List Char × β)) (k : List Char)
    (v : β) : mapGet (mapSet m k v) k = some v := by
  unfold mapSet
  split
  · rename_i hany
    unfold mapGet
    rw [find?_mapSet_update, if_pos hany]
    rfl
  · rename_i hany
    unfold mapGet
    rw [List.find?_append]
    have hnone : m.find? (fun p => p.1 == k) = none := by
      rw [List.find?_eq_none]
      intro x hx hbeq
      exact hany (List.any_eq_true.mpr ⟨x, hx, hbeq⟩)
    rw [hnone]
    simp

/-- C7 counterexample: a concrete world with a live session `ABCD`, per-key
continuous-streaming state `ABCD:es` and an open TTS channel `ABCD:es`.  A
second speaker join for the same code installs a fresh session record, yet
the prior session's segmentation state and TTS channel remain — the claimed
teardown does not happen. -/
theorem speaker_replacement_no_teardown_counterexample :
    (handleSpeakerJoin
        { sessions := [("ABCD".data,
            { speakerId := "spk1".data, sourceLang := some "en".data,
              targetLangs := ["es".data],
              listeners := [("lis1".data,
                { lang := "es".data, voice := none, joinedAt := 5 })],
              metrics := { startTime := 0, translations := 3,
                           totalLatency := 42 } })],
          continuousSessions := [("ABCD:es".data,
            { lastSentLength := 57, fullText := "hola".data,
              lastUpdateTime := 9 })],
          ttsConnections := ["ABCD:es".data] }
        "spk2".data "abcd".data (some "fr".data) none none 100).continuousSessions =
      [("ABCD:es".data,
        { lastSentLength := 57, fullText := "hola".data, lastUpdateTime := 9 })] ∧
    (handleSpeakerJoin
        { sessions := [("ABCD".data,
            { speakerId := "spk1".data, sourceLang := some "en".data,
              targetLangs := ["es".data],
              listeners := [("lis1".data,
                { lang := "es".data, voice := none, joinedAt := 5 })],
              metrics := { startTime := 0, translations := 3,
                           totalLatency := 42 } })],
          continuousSessions := [("ABCD:es".data,
            { lastSentLength := 57, fullText := "hola".data,
              lastUpdateTime := 9 })],
          ttsConnections := ["ABCD:es".data] }
        "spk2".data "abcd".data (some "fr".data) none none 100).ttsConnections =
      ["ABCD:es".data] ∧
    mapGet (handleSpeakerJoin
        { sessions := [("ABCD".data,
            { speakerId := "spk1".data, sourceLang := some "en".data,
              targetLangs := ["es".data],
              listeners := [("lis1".data,
                { lang := "es".data, voice := none, joinedAt := 5 })],
              metrics := { startTime := 0, translations := 3,
                           totalLatency := 42 } })],
          continuousSessions := [("ABCD:es".data,
            { lastSentLength := 57, fullText := "hola".data,
              lastUpdateTime := 9 })],
          ttsConnections := ["ABCD:es".data] }
        "spk2".data "abcd".data (some "fr".data) none none 100).sessions
      "ABCD".data =
      some { speakerId := "spk2".data, sourceLang := some "fr".data,
             targetLangs := [], listeners := [],
             metrics := { startTime := 100, translations := 0,
                          totalLatency := 0 } } := by
  refine ⟨by decide, by decide, by decide⟩

/-- C7 amended: a speaker join with a valid 4-character code replaces the
session record wholesale — fresh speaker id, empty listener set, fresh
metrics — and performs no teardown: the continuous-streaming segmentation
states and the open persistent TTS channels (for the replaced code included)
are left exactly as they were. -/
theorem handleSpeakerJoin_replaces_without_teardown
    (w : World) (socketId sessionCode : List Char)
    (sourceLang : Option (List Char)) (targetLangs : Option (List (List Char)))
    (hint : Option (List Char)) (now : ℕ)
    (hvalid : (normalizeCode sessionCode).length = 4) :
    mapGet (handleSpeakerJoin w socketId sessionCode sourceLang targetLangs
        hint now).sessions (normalizeCode sessionCode) =
      some { speakerId := socketId,
             sourceLang := match sourceLang with
                           | some s => some s
                           | none => hint,
             targetLangs := targetLangs.getD [], listeners := [],
             metrics := { startTime := now, translations := 0,
                          totalLatency := 0 } } ∧
    (handleSpeakerJoin w socketId sessionCode sourceLang targetLangs
        hint now).continuousSessions = w.continuousSessions ∧
    (handleSpeakerJoin w socketId sessionCode sourceLang targetLangs
        hint now).ttsConnections = w.ttsConnections := by
  unfold handleSpeakerJoin
  rw [if_neg (by rw [hvalid]; exact fun h => h rfl)]
  exact ⟨mapGet_mapSet _ _ _, rfl, rfl⟩

/-- C7 amended witness: the theorem applied at the concrete world of the
counterexample. -/
theorem handleSpeakerJoin_replaces_without_teardown_witness :
    (normalizeCode "abcd".data).length = 4 ∧
    (handleSpeakerJoin
        { sessions := [], continuousSessions := [("ABCD:es".data,
            { lastSentLength := 57, fullText := "hola".data,
              lastUpdateTime := 9 })],
          ttsConnections := ["ABCD:es".data] }
        "spk2".data "abcd".data none none none 100).continuousSessions =
      [("ABCD:es".data,
        { lastSentLength := 57, fullText := "hola".data,
          lastUpdateTime := 9 })] :=
  ⟨by decide,
   (handleSpeakerJoin_replaces_without_teardown
      { sessions := [], continuousSessions := [("ABCD:es".data,
          { lastSentLength := 57, fullText := "hola".data,
            lastUpdateTime := 9 })],
        ttsConnections := ["ABCD:es".data] }
      "spk2".data "abcd".data none none none 100 (by decide)).2.1⟩

/-- C2: the continuous-streaming `audio-chunk` fan-out receives no session
code (the `webSocketTTS` event payload is `{audio, language, isFinal}` only)
and iterates over all sessions, so an audio chunk produced on session
`AAAA`'s TTS channel is also delivered to session `BBBB`'s listener of the
same language; the `translation-update` path, by contrast, is scoped to the
transcript's session. -/
theorem audio_chunk_cross_session_leak :
    audioChunkFanout
      [("AAAA".data,
        { speakerId := "spkA".data, sourceLang := none,
          targetLangs := ["es".data],
          listeners := [("sockA".data,
            { lang := "es".data, voice := none, joinedAt := 0 })],
          metrics := { startTime := 0, translations := 0, totalLatency := 0 } }),
       ("BBBB".data,
        { speakerId := "spkB".data, sourceLang := none,
          targetLangs := ["es".data],
          listeners := [("sockB".data,
            { lang := "es".data, voice := none, joinedAt := 0 })],
          metrics := { startTime := 0, translations := 0, totalLatency := 0 } })]
      "es".data = ["sockA".data, "sockB".data] ∧
    translationUpdateFanout
      [("AAAA".data,
        { speakerId := "spkA".data, sourceLang := none,
          targetLangs := ["es".data],
          listeners := [("sockA".data,
            { lang := "es".data, voice := none, joinedAt := 0 })],
          metrics := { startTime := 0, translations := 0, totalLatency := 0 } }),
       ("BBBB".data,
        { speakerId := "spkB".data, sourceLang := none,
          targetLangs := ["es".data],
          listeners := [("sockB".data,
            { lang := "es".data, voice := none, joinedAt := 0 })],
          metrics := { startTime := 0, translations := 0, totalLatency := 0 } })]
      "AAAA".data "es".data = ["sockA".data] := by
  refine ⟨by decide, by decide⟩

end Websocket

namespace HybridSentenceExtractor

/-- C4 counterexample: on a fresh session, a final event carrying the single
complete sentence `"Hola a todos."` — its first-ever appearance — produces no
stable sentence and no TTS, although the claim requires it to be emitted on
that event (`is_final = true` and `appearance_count = 1 ≥ 1`).  The stability
conditions are only evaluated for sentences already present in the candidate
table. -/
theorem first_final_appearance_not_emitted :
    extractSentences "Hola a todos.".data = ["Hola a todos.".data] ∧
    (processPartial defaultParams (initSession 0) 0 "Hola a todos.".data
        true).2.stableSentences = [] ∧
    (processPartial defaultParams (initSession 0) 0 "Hola a todos.".data
        true).2.shouldGenerateTTS = false := by
  refine ⟨?_, ?_, ?_⟩ <;>
    simp [processPartial, preprocess, extractSentences, extractSentencesAux,
      sentencePatternChar, sentenceTrailChar, isAbbreviation, abbreviations,
      initSession, defaultParams, CLEANUP_THRESHOLD_MS, processSentenceStep,
      historyFind, hashSentence, detectRevisions, List.isSuffixOf,
      List.isPrefixOf, List.reverse_cons, jsWs, jsTrim, jsToLower,
      DEFAULT_THRESHOLD, DEFAULT_TIME_MS, String.data]

/-- C4 amended: for a `processPartial` call whose text extracts exactly one
sentence (sentence mode, no pending cleanup) with an unplayed fingerprint:
if the sentence is absent from the candidate table it is only recorded, not
emitted — even on `is_final = true`; if it is already in the table with entry
`e`, it is emitted (exactly once, keyed by fingerprint) precisely when, with
the incremented count `e.count + 1`, one of the claimed conditions holds:
count ≥ threshold, or `is_final` with count ≥ 1, or age beyond the time
window with count ≥ 2. -/
theorem hybrid_stability_conditions
    (p : Params) (s : Session) (now : ℕ) (text : List Char) (fin : Bool)
    (sentence : List Char)
    (hmode : p.phraseMode = false)
    (hext : extractSentences text = [sentence])
    (hclean : ¬ (CLEANUP_THRESHOLD_MS < now - s.lastCleanup))
    (hplayed : hashSentence sentence ∉ s.playedSentences) :
    (historyFind s.sentenceHistory sentence = none →
      (processPartial p s now text fin).2.stableSentences = []) ∧
    (∀ e : SentenceHistory, historyFind s.sentenceHistory sentence = some e →
      (processPartial p s now text fin).2.stableSentences.map (·.hash) =
        (if p.threshold ≤ e.count + 1 ∨ (fin = true ∧ 1 ≤ e.count + 1) ∨
            (p.timeMs < now - e.firstSeen ∧ 2 ≤ e.count + 1)
         then [hashSentence sentence] else [])) := by
  have hcont : s.playedSentences.contains (hashSentence sentence) = false := by
    rw [List.contains, List.elem_eq_mem]
    exact decide_eq_false hplayed
  unfold processPartial preprocess
  rw [if_neg hclean]
  simp only [hmode, Bool.false_eq_true, if_false, hext, List.foldl_cons,
    List.foldl_nil]
  unfold processSentenceStep
  dsimp only
  rw [hcont]
  simp only [Bool.false_eq_true, if_false]
  constructor
  · intro hnone
    rw [hnone]
  · intro e hsome
    rw [hsome]
    dsimp only
    by_cases hcond : (p.threshold ≤ e.count + 1 ∨ (fin = true ∧ 1 ≤ e.count + 1) ∨
        (p.timeMs < now - e.firstSeen ∧ 2 ≤ e.count + 1))
    · rw [if_pos hcond]
      have hbool : (decide (p.threshold ≤ e.count + 1) ||
          (fin && decide (1 ≤ e.count + 1)) ||
          (decide (p.timeMs < now - e.firstSeen) &&
            decide (2 ≤ e.count + 1))) = true := by
        rcases hcond with h | ⟨h1, h2⟩ | ⟨h1, h2⟩
        · simp [h]
        · simp [h1, h2]
        · simp [h1, h2]
      rw [hbool]
      simp [hcont]
    · rw [if_neg hcond]
      push_neg at hcond
      obtain ⟨h1, h2, h3⟩ := hcond
      have hbool : (decide (p.threshold ≤ e.count + 1) ||
          (fin && decide (1 ≤ e.count + 1)) ||
          (decide (p.timeMs < now - e.firstSeen) &&
            decide (2 ≤ e.count + 1))) = false := by
        have hA : decide (p.threshold ≤ e.count + 1) = false :=
          decide_eq_false (by omega)
        have hf' : fin = false := by
          cases hfin : fin
          · rfl
          · exact absurd (h2 hfin) (by omega)
        by_cases ht : p.timeMs < now - e.firstSeen
        · have hC2 : decide (2 ≤ e.count + 1) = false :=
            decide_eq_false (by have := h3 ht; omega)
          simp only [hA, hf', hC2, Bool.false_and, Bool.and_false,
            Bool.false_or, Bool.or_false]
        · have hC1 : decide (p.timeMs < now - e.firstSeen) = false :=
            decide_eq_false ht
          simp only [hA, hf', hC1, Bool.false_and, Bool.and_false,
            Bool.false_or, Bool.or_false]
      rw [hbool]
      simp

end HybridSentenceExtractor

/-- C4 amended witness: the theorem applied to a session whose candidate
table already holds `"Hola a todos."` with count 1; a final event carrying it
emits its fingerprint. -/
theorem hybrid_stability_conditions_witness :
    (HybridSentenceExtractor.processPartial HybridSentenceExtractor.defaultParams
        { sentenceHistory := [("Hola a todos.".data,
            { count := 1, firstSeen := 0, lastSeen := 0,
              hash := HybridSentenceExtractor.hashSentence "Hola a todos.".data,
              hasEndPunctuation := true })],
          playedSentences := [], lastPartialText := [],
          partialCount := 1, lastCleanup := 0 }
        100 "Hola a todos.".data true).2.stableSentences.map (·.hash) =
      [HybridSentenceExtractor.hashSentence "Hola a todos.".data] := by
  have h := (HybridSentenceExtractor.hybrid_stability_conditions
      HybridSentenceExtractor.defaultParams
      { sentenceHistory := [("Hola a todos.".data,
          { count := 1, firstSeen := 0, lastSeen := 0,
            hash := HybridSentenceExtractor.hashSentence "Hola a todos.".data,
            hasEndPunctuation := true })],
        playedSentences := [], lastPartialText := [],
        partialCount := 1, lastCleanup := 0 }
      100 "Hola a todos.".data true "Hola a todos.".data
      rfl
      (by simp [HybridSentenceExtractor.extractSentences,
        HybridSentenceExtractor.extractSentencesAux,
        HybridSentenceExtractor.sentencePatternChar,
        HybridSentenceExtractor.sentenceTrailChar,
        HybridSentenceExtractor.isAbbreviation,
        HybridSentenceExtractor.abbreviations, List.isSuffixOf,
        List.isPrefixOf, List.reverse_cons, jsWs, jsTrim, String.data])
      (by decide) (by simp)).2
      { count := 1, firstSeen := 0, lastSeen := 0,
        hash := HybridSentenceExtractor.hashSentence "Hola a todos.".data,
        hasEndPunctuation := true }
      (by decide)
  rw [h, if_pos]
  right
  left
  exact ⟨rfl, by omega⟩

/-- C1: at-most-once voicing.  For each segmentation engine — hybrid,
ultra-low-latency, and the streaming (final-only) extractor — over any
sequence of processed transcript events of one (session, language) pipeline
starting from its fresh state, every synthesis fingerprint is emitted at most
once: each extractor adds the fingerprint to its already-spoken set when it
emits and skips any utterance whose fingerprint is already in that set. -/
theorem at_most_once_voicing :
    (∀ (t0 : ℕ) (events : List HybridSentenceExtractor.Event) (fp : List Char),
      (HybridSentenceExtractor.runEmitted
        (HybridSentenceExtractor.initSession t0) events).count fp ≤ 1) ∧
    (∀ (t0 : ℕ) (events : List UltraLowLatencyExtractor.Event) (fp : List Char),
      (UltraLowLatencyExtractor.runEmitted
        (UltraLowLatencyExtractor.initSession t0) events).count fp ≤ 1) ∧
    (∀ (events : List StreamingSentenceExtractor.Event) (fp : List Char),
      (StreamingSentenceExtractor.runEmitted
        StreamingSentenceExtractor.initState events).count fp ≤ 1) :=
  ⟨HybridSentenceExtractor.hybrid_at_most_once,
   UltraLowLatencyExtractor.ultra_at_most_once,
   StreamingSentenceExtractor.streaming_at_most_once⟩

/-- The seven JS whitespace code points of `jsWs`, as an enumeration. -/
theorem jsWs_cases (c : Char) (h : jsWs c = true) :
    c = ' ' ∨ c = '\t' ∨ c = '\n' ∨ c = '\r' ∨ c = '\x0b' ∨ c = '\x0c' ∨
    c = '\u00A0' := by
  unfold jsWs at h
  simp only [Bool.or_eq_true, decide_eq_true_eq] at h
  rcases h with ((((((h | h) | h) | h) | h) | h) | h) <;> simp [h]

/-- `dropWhile` is the identity on lists with no satisfying head anywhere. -/
theorem dropWhile_eq_self_of {α : Type} (p : α → Bool) (l : List α)
    (h : ∀ c ∈ l, p c = false) : l.dropWhile p = l := by
  cases l with
  | nil => rfl
  | cons c rest =>
    rw [List.dropWhile_cons, if_neg]
    rw [h c (List.mem_cons_self _ _)]
    exact Bool.false_ne_true

/-- A list that contains an element not satisfying `p` does not `dropWhile`
to nothing. -/
theorem dropWhile_ne_nil_of_mem {α : Type} (p : α → Bool) (l : List α)
    (x : α) (hx : x ∈ l) (hpx : p x = false) : l.dropWhile p ≠ [] := by
  induction l with
  | nil => cases hx
  | cons c rest ih =>
    rw [List.dropWhile_cons]
    split
    · rename_i hc
      rcases List.mem_cons.mp hx with rfl | hx'
      · rw [hpx] at hc
        cases hc
      · exact ih hx'
    · simp

/-- The head of a non-empty `dropWhile` result does not satisfy `p`. -/
theorem dropWhile_head_false {α : Type} (p : α → Bool) :
    ∀ (l : List α) (b : α) (bs : List α), l.dropWhile p = b :: bs →
      p b = false := by
  intro l
  induction l with
  | nil => intro b bs h; cases h
  | cons c rest ih =>
    intro b bs h
    rw [List.dropWhile_cons] at h
    split at h
    · exact ih b bs h
    · rename_i hc
      cases h
      exact Bool.eq_false_iff.mpr hc

/-- Trimming does nothing to a list with no whitespace. -/
theorem jsTrim_eq_self_of_nonws (w : List Char)
    (h : ∀ c ∈ w, jsWs c = false) : jsTrim w = w := by
  unfold jsTrim
  rw [dropWhile_eq_self_of _ _ h,
    dropWhile_eq_self_of _ _ (fun c hc => h c (List.mem_reverse.mp hc)),
    List.reverse_reverse]

/-- A leading whitespace character is dropped by `jsTrim`. -/
theorem jsTrim_cons_ws (c : Char) (hc : jsWs c = true) (l : List Char) :
    jsTrim (c :: l) = jsTrim l := by
  unfold jsTrim
  rw [List.dropWhile_cons_of_pos hc]

/-- `collapseWs` passes a whitespace-free prefix through unchanged. -/
theorem collapseWs_keeps_nonws_front :
    ∀ (w tail : List Char), (∀ c ∈ w, jsWs c = false) →
      StreamingSentenceExtractor.collapseWs (w ++ tail) =
        w ++ StreamingSentenceExtractor.collapseWs tail := by
  intro w
  induction w with
  | nil => intro tail _; rfl
  | cons c rest ih =>
    intro tail h
    rw [List.cons_append, StreamingSentenceExtractor.collapseWs]
    rw [if_neg (by rw [h c (List.mem_cons_self _ _)]; exact Bool.false_ne_true)]
    rw [List.cons_append]
    congr 1
    exact ih tail (fun x hx => h x (List.mem_cons_of_mem c hx))

/-- Every character of a `takeWhile (fun x => !jsWs x)` run is
whitespace-free. -/
theorem nonws_of_mem_takeWhile (l : List Char) (c : Char)
    (hc : c ∈ l.takeWhile (fun x => !jsWs x)) : jsWs c = false := by
  have := List.mem_takeWhile_imp hc
  simpa using this

/-- Trimming a whitespace-free non-empty word with one trailing space yields
the word. -/
theorem jsTrim_word_trailing_space (c : Char) (w : List Char)
    (h : ∀ x ∈ c :: w, jsWs x = false) : jsTrim ((c :: w) ++ [' ']) = c :: w := by
  unfold jsTrim
  have h1 : ((c :: w) ++ [' ']).dropWhile jsWs = (c :: w) ++ [' '] := by
    rw [List.cons_append]
    exact List.dropWhile_cons_of_neg
      (by rw [h c (List.mem_cons_self _ _)]; exact Bool.false_ne_true)
  rw [h1, List.reverse_append]
  have h2 : ([' '].reverse ++ (c :: w).reverse).dropWhile jsWs =
      (c :: w).reverse := by
    rw [show ([' '] : List Char).reverse = [' '] from rfl, List.singleton_append,
      List.dropWhile_cons_of_pos (by decide)]
    exact dropWhile_eq_self_of _ _ (fun x hx => h x (List.mem_reverse.mp hx))
  rw [h2, List.reverse_reverse]

/-- Trimming a whitespace-free non-empty word, one space, and a tail that
starts with a non-whitespace character trims only inside the tail. -/
theorem jsTrim_word_space_tail (c : Char) (w : List Char) (e : Char)
    (rest : List Char) (h : ∀ x ∈ c :: w, jsWs x = false)
    (he : jsWs e = false) :
    jsTrim ((c :: w) ++ ' ' :: e :: rest) =
      (c :: w) ++ ' ' :: jsTrim (e :: rest) := by
  have hU : (e :: rest).reverse.dropWhile jsWs ≠ [] :=
    dropWhile_ne_nil_of_mem jsWs _ e
      (List.mem_reverse.mpr (List.mem_cons_self _ _)) he
  unfold jsTrim
  have h1 : ((c :: w) ++ ' ' :: e :: rest).dropWhile jsWs =
      (c :: w) ++ ' ' :: e :: rest := by
    rw [List.cons_append]
    exact List.dropWhile_cons_of_neg
      (by rw [h c (List.mem_cons_self _ _)]; exact Bool.false_ne_true)
  have h2 : (e :: rest).dropWhile jsWs = e :: rest :=
    List.dropWhile_cons_of_neg (by rw [he]; exact Bool.false_ne_true)
  rw [h1, h2]
  have h3 : ((c :: w) ++ ' ' :: e :: rest).reverse =
      (e :: rest).reverse ++ ([' '] ++ (c :: w).reverse) := by
    rw [show (' ' :: e :: rest : List Char) = [' '] ++ e :: rest from rfl,
      ← List.append_assoc, List.reverse_append, List.reverse_append]
    rw [show ([' '] : List Char).reverse = [' '] from rfl]
  rw [h3, List.dropWhile_append, if_neg (by simpa using hU)]
  rw [List.reverse_append, List.reverse_append, List.reverse_reverse]
  rw [show ([' '] : List Char).reverse = [' '] from rfl]
  rw [List.append_assoc, List.singleton_append]

/-- The core collapse/trim identity: trimming the whitespace-collapsed form
of any string yields exactly its maximal non-whitespace runs joined by single
spaces. -/
theorem trimCollapse_eq_joinWords (m : List Char) :
    jsTrim (StreamingSentenceExtractor.collapseWs m) =
      joinWords (splitWsRuns m) := by
  match m with
  | [] =>
    rw [show StreamingSentenceExtractor.collapseWs [] = [] by
        rw [StreamingSentenceExtractor.collapseWs],
      show splitWsRuns [] = [] by rw [splitWsRuns]]
    rfl
  | c :: rest =>
    by_cases hw : jsWs c = true
    · rw [StreamingSentenceExtractor.collapseWs, if_pos hw,
        jsTrim_cons_ws ' ' (by decide), splitWsRuns, if_pos hw]
      exact trimCollapse_eq_joinWords (rest.dropWhile jsWs)
    · have hwf : jsWs c = false := Bool.eq_false_iff.mpr hw
      have hsplit : splitWsRuns (c :: rest) =
          (c :: rest.takeWhile (fun x => !jsWs x)) ::
            splitWsRuns (rest.dropWhile (fun x => !jsWs x)) := by
        rw [splitWsRuns, if_neg hw]
      have hm : c :: rest =
          (c :: rest.takeWhile (fun x => !jsWs x)) ++
            rest.dropWhile (fun x => !jsWs x) := by
        rw [List.cons_append, List.takeWhile_append_dropWhile]
      have hwordnw : ∀ x ∈ c :: rest.takeWhile (fun y => !jsWs y),
          jsWs x = false := by
        intro x hx
        rcases List.mem_cons.mp hx with rfl | hx'
        · exact hwf
        · exact nonws_of_mem_takeWhile rest x hx'
      rw [hsplit]
      conv =>
        lhs
        rw [hm]
      rw [collapseWs_keeps_nonws_front _ _ hwordnw]
      cases hT : rest.dropWhile (fun x => !jsWs x) with
      | nil =>
        rw [StreamingSentenceExtractor.collapseWs, List.append_nil, splitWsRuns,
          jsTrim_eq_self_of_nonws _ hwordnw]
        rfl
      | cons d rest2 =>
        have hd : jsWs d = true := by
          have := dropWhile_head_false (fun x => !jsWs x) rest d rest2 hT
          simpa using this
        rw [StreamingSentenceExtractor.collapseWs, if_pos hd]
        have hsplitT : splitWsRuns (d :: rest2) =
            splitWsRuns (rest2.dropWhile jsWs) := by
          rw [splitWsRuns, if_pos hd]
        cases hT2 : rest2.dropWhile jsWs with
        | nil =>
          rw [StreamingSentenceExtractor.collapseWs, hsplitT, hT2, splitWsRuns]
          exact jsTrim_word_trailing_space c _ hwordnw
        | cons e rest3 =>
          have he : jsWs e = false :=
            dropWhile_head_false jsWs rest2 e rest3 hT2
          rw [StreamingSentenceExtractor.collapseWs, if_neg (by rw [he]; exact Bool.false_ne_true)]
          rw [jsTrim_word_space_tail c _ e _ hwordnw he]
          have hIH := trimCollapse_eq_joinWords (e :: rest3)
          have hcoll : StreamingSentenceExtractor.collapseWs (e :: rest3) =
              e :: StreamingSentenceExtractor.collapseWs rest3 := by
            rw [StreamingSentenceExtractor.collapseWs, if_neg (by rw [he]; exact Bool.false_ne_true)]
          rw [hcoll] at hIH
          rw [hIH, hsplitT, hT2]
          rw [splitWsRuns, if_neg (by rw [he]; exact Bool.false_ne_true)]
          rfl
  termination_by m.length
  decreasing_by
  · simp only [List.length_cons]
    exact Nat.lt_succ_of_le (dropWhile_length_le _ _)
  · have h1 : rest2.length + 1 ≤ rest.length := by
      have := dropWhile_length_le (fun x => !jsWs x) rest
      rw [hT] at this
      simpa using this
    have h2 : (rest2.dropWhile jsWs).length ≤ rest2.length :=
      dropWhile_length_le _ _
    rw [hT2] at h2
    simp only [List.length_cons] at h2 ⊢
    omega

namespace StreamingSentenceExtractor

/-- ASCII alphanumerics are not whitespace. -/
theorem alnum_not_ws (c : Char) (h : isAsciiAlnum c = true) : jsWs c = false := by
  cases hws : jsWs c
  · rfl
  · exfalso
    rcases jsWs_cases c hws with rfl | rfl | rfl | rfl | rfl | rfl | rfl <;>
      simp [isAsciiAlnum] at h

/-- `replaceChar` keeps alphanumerics unchanged. -/
theorem replaceChar_alnum (c : Char) (h : isAsciiAlnum c = true) :
    replaceChar c = c := by
  unfold replaceChar keptByReplace
  rw [if_pos (by rw [h, Bool.true_or])]

/-- A character survives `replaceChar` as non-whitespace exactly when it is
alphanumeric. -/
theorem nonws_replaceChar (c : Char) :
    (!jsWs (replaceChar c)) = isAsciiAlnum c := by
  unfold replaceChar keptByReplace
  by_cases ha : isAsciiAlnum c = true
  · rw [if_pos (by rw [ha, Bool.true_or]), alnum_not_ws c ha, ha]
    rfl
  · have ha' : isAsciiAlnum c = false := Bool.eq_false_iff.mpr ha
    by_cases hw : jsWs c = true
    · rw [if_pos (by rw [hw, Bool.or_true]), hw, ha']
      rfl
    · have hw' : jsWs c = false := Bool.eq_false_iff.mpr hw
      rw [if_neg (by rw [ha', hw']; exact Bool.false_ne_true), ha']
      decide

/-- `alnumRuns` ignores a leading non-alphanumeric stretch. -/
theorem alnumRuns_dropWhile_not (l : List Char) :
    alnumRuns (l.dropWhile (fun x => !isAsciiAlnum x)) = alnumRuns l := by
  induction l with
  | nil => rfl
  | cons c rest ih =>
    by_cases ha : isAsciiAlnum c = true
    · rw [List.dropWhile_cons_of_neg (by rw [ha]; simp)]
    · have ha' : isAsciiAlnum c = false := Bool.eq_false_iff.mpr ha
      rw [List.dropWhile_cons_of_pos (by rw [ha']; rfl),
        show alnumRuns (c :: rest) = alnumRuns rest by
          rw [alnumRuns, if_neg (by rw [ha']; exact Bool.false_ne_true)]]
      exact ih

/-- The whitespace runs of the replace image are exactly the alphanumeric
runs of the original. -/
theorem splitWsRuns_map_replaceChar (l : List Char) :
    splitWsRuns (l.map replaceChar) = alnumRuns l := by
  have hcomp : ((fun x => !jsWs x) ∘ replaceChar) = isAsciiAlnum := by
    funext x
    exact nonws_replaceChar x
  match l with
  | [] =>
    rw [List.map_nil, show splitWsRuns ([] : List Char) = [] by rw [splitWsRuns],
      show alnumRuns [] = [] by rw [alnumRuns]]
  | c :: rest =>
    by_cases ha : isAsciiAlnum c = true
    · have hrc : replaceChar c = c := replaceChar_alnum c ha
      have hnws : jsWs c = false := alnum_not_ws c ha
      rw [List.map_cons, hrc, splitWsRuns,
        if_neg (by rw [hnws]; exact Bool.false_ne_true),
        alnumRuns, if_pos ha]
      have htake : (rest.map replaceChar).takeWhile (fun x => !jsWs x) =
          rest.takeWhile isAsciiAlnum := by
        rw [List.takeWhile_map, hcomp]
        have hid : ∀ x ∈ rest.takeWhile isAsciiAlnum, replaceChar x = x :=
          fun x hx => replaceChar_alnum x (List.mem_takeWhile_imp hx)
        rw [List.map_congr_left hid, List.map_id']
      have hdrop : (rest.map replaceChar).dropWhile (fun x => !jsWs x) =
          (rest.dropWhile isAsciiAlnum).map replaceChar := by
        rw [List.dropWhile_map, hcomp]
      rw [htake, hdrop, splitWsRuns_map_replaceChar (rest.dropWhile isAsciiAlnum)]
    · have ha' : isAsciiAlnum c = false := Bool.eq_false_iff.mpr ha
      have hws : jsWs (replaceChar c) = true := by
        have hnr := nonws_replaceChar c
        rw [ha'] at hnr
        cases hb : jsWs (replaceChar c)
        · rw [hb] at hnr
          exact absurd hnr (by decide)
        · rfl
      rw [List.map_cons, splitWsRuns, if_pos hws,
        show alnumRuns (c :: rest) = alnumRuns rest by
          rw [alnumRuns, if_neg (by rw [ha']; exact Bool.false_ne_true)]]
      have hdrop : (rest.map replaceChar).dropWhile jsWs =
          (rest.dropWhile (fun x => !isAsciiAlnum x)).map replaceChar := by
        rw [List.dropWhile_map]
        have hcomp2 : (jsWs ∘ replaceChar) = (fun x => !isAsciiAlnum x) := by
          funext x
          rw [← nonws_replaceChar x, Bool.not_not]
          rfl
        rw [hcomp2]
      rw [hdrop,
        splitWsRuns_map_replaceChar (rest.dropWhile (fun x => !isAsciiAlnum x)),
        alnumRuns_dropWhile_not]
  termination_by l.length
  decreasing_by
  · simp only [List.length_cons]
    exact Nat.lt_succ_of_le (dropWhile_length_le _ _)
  · simp only [List.length_cons]
    exact Nat.lt_succ_of_le (dropWhile_length_le _ _)

/-- Characterization of `normalizeForCompare`: the normalized form is the
alphanumeric tokens of the NFD-stripped lower-cased text joined by single
spaces. -/
theorem normalizeForCompare_eq_joinTokens (s : List Char) :
    normalizeForCompare s = joinWords (streamTokens s) := by
  unfold normalizeForCompare streamTokens
  split
  · rename_i h
    have hs : s = [] := List.isEmpty_iff.mp h
    subst hs
    rw [show nfd [] = [] from rfl]
    rw [List.filter_nil, List.map_nil, show alnumRuns [] = [] by rw [alnumRuns]]
    rfl
  · rw [trimCollapse_eq_joinWords, splitWsRuns_map_replaceChar]

end StreamingSentenceExtractor

/-- `jsToLower` maps whitespace to whitespace and non-whitespace to
non-whitespace. -/
theorem jsWs_jsToLower (c : Char) : jsWs (jsToLower c) = jsWs c := by
  unfold jsToLower
  by_cases hE : c = 'É'
  · subst hE
    decide
  · rw [if_neg hE]
    unfold Char.toLower
    by_cases hr : c.toNat ≥ 65 ∧ c.toNat ≤ 90
    · rw [if_pos hr]
      obtain ⟨h1, h2⟩ := hr
      have hx : c = Char.ofNat c.toNat := (Char.ofNat_toNat c).symm
      set n := c.toNat with hn
      interval_cases n <;> (rw [hx]; decide)
    · rw [if_neg hr]

/-- Trimming commutes with lower-casing. -/
theorem jsTrim_map_jsToLower (u : List Char) :
    jsTrim (u.map jsToLower) = (jsTrim u).map jsToLower := by
  have hcomp : (jsWs ∘ jsToLower) = jsWs := by
    funext x
    exact jsWs_jsToLower x
  unfold jsTrim
  rw [List.dropWhile_map, hcomp, ← List.map_reverse, List.dropWhile_map, hcomp,
    ← List.map_reverse]

/-- C8 counterexample: the hybrid and ultra-low-latency fingerprints are the
hash of `trim().toLowerCase()` only, so two utterances differing in an
interior whitespace run — or only in a diacritic (NFD: `é` = `e` + U+0301) —
get different fingerprints there, while the streaming extractor's
normalization identifies both pairs.  This refutes the claim that the
fingerprint is whitespace- and diacritic-insensitive for every policy. -/
theorem fingerprint_not_normalized :
    HybridSentenceExtractor.hashSentence "hello  world.".data ≠
      HybridSentenceExtractor.hashSentence "hello world.".data ∧
    UltraLowLatencyExtractor.hashText "hello  world.".data ≠
      UltraLowLatencyExtractor.hashText "hello world.".data ∧
    HybridSentenceExtractor.hashSentence "café".data ≠
      HybridSentenceExtractor.hashSentence "cafe".data ∧
    StreamingSentenceExtractor.normalizeForCompare "hello  world.".data =
      StreamingSentenceExtractor.normalizeForCompare "hello world.".data ∧
    StreamingSentenceExtractor.normalizeForCompare "café".data =
      StreamingSentenceExtractor.normalizeForCompare "cafe".data := by
  refine ⟨by decide, by decide, by decide, ?_, ?_⟩ <;>
    simp [StreamingSentenceExtractor.normalizeForCompare,
      StreamingSentenceExtractor.collapseWs, StreamingSentenceExtractor.nfd,
      StreamingSentenceExtractor.nfdChar, StreamingSentenceExtractor.isCombiningMark,
      StreamingSentenceExtractor.replaceChar, StreamingSentenceExtractor.keptByReplace,
      StreamingSentenceExtractor.isAsciiAlnum, jsWs, jsTrim, jsToLower,
      String.data]

/-- C8 amended: every policy's fingerprint is case-insensitive (the hybrid
and ultra fingerprints hash `trim().toLowerCase()`, so inputs equal after
lower-casing get equal fingerprints), but the full insensitivity — Unicode
NFD with combining marks stripped, whitespace runs collapsed, and
non-alphanumerics neutralized — holds only for the streaming extractor's
`normalizeForCompare`: any two texts with the same alphanumeric token
sequence after NFD-stripping and lower-casing normalize identically. -/
theorem fingerprint_normalization :
    (∀ s t : List Char, s.map jsToLower = t.map jsToLower →
      HybridSentenceExtractor.hashSentence s =
        HybridSentenceExtractor.hashSentence t) ∧
    (∀ s t : List Char, s.map jsToLower = t.map jsToLower →
      UltraLowLatencyExtractor.hashText s =
        UltraLowLatencyExtractor.hashText t) ∧
    (∀ s t : List Char,
      StreamingSentenceExtractor.streamTokens s =
        StreamingSentenceExtractor.streamTokens t →
      StreamingSentenceExtractor.normalizeForCompare s =
        StreamingSentenceExtractor.normalizeForCompare t) := by
  refine ⟨?_, ?_, ?_⟩
  · intro s t h
    unfold HybridSentenceExtractor.hashSentence
    rw [← jsTrim_map_jsToLower, ← jsTrim_map_jsToLower, h]
  · intro s t h
    unfold UltraLowLatencyExtractor.hashText
    rw [← jsTrim_map_jsToLower, ← jsTrim_map_jsToLower, h]
  · intro s t h
    rw [StreamingSentenceExtractor.normalizeForCompare_eq_joinTokens,
      StreamingSentenceExtractor.normalizeForCompare_eq_joinTokens, h]

/-- C8 amended witness: the theorem applied to `"Hola."`/`"HOLA."` (case) and
`"Hello,  WORLD"`/`"héllo world"` (case, diacritics, whitespace runs and
punctuation). -/
theorem fingerprint_normalization_witness :
    HybridSentenceExtractor.hashSentence "Hola.".data =
      HybridSentenceExtractor.hashSentence "HOLA.".data ∧
    UltraLowLatencyExtractor.hashText "Hola.".data =
      UltraLowLatencyExtractor.hashText "HOLA.".data ∧
    StreamingSentenceExtractor.normalizeForCompare "Hello,  WORLD".data =
      StreamingSentenceExtractor.normalizeForCompare "héllo world".data :=
  ⟨fingerprint_normalization.1 "Hola.".data "HOLA.".data (by decide),
   fingerprint_normalization.2.1 "Hola.".data "HOLA.".data (by decide),
   fingerprint_normalization.2.2 "Hello,  WORLD".data "héllo world".data
     (by simp [StreamingSentenceExtractor.streamTokens,
       StreamingSentenceExtractor.alnumRuns, StreamingSentenceExtractor.nfd,
       StreamingSentenceExtractor.nfdChar,
       StreamingSentenceExtractor.isCombiningMark,
       StreamingSentenceExtractor.isAsciiAlnum, jsToLower, String.data])⟩

/-- C9 sanity example: growth beyond 3 chars is forwarded verbatim. -/
example :
    (ContinuousStreamProcessor.processText
      { lastSentLength := 5, fullText := "Hola ".data, lastUpdateTime := 0 }
      10 "Hola amigos".data false).2.textToSend = "amigos".data := by decide

/-- C10 sanity example: shrinking text sends nothing even on a final. -/
example :
    (ContinuousStreamProcessor.processText
      { lastSentLength := 11, fullText := "Hola amigos".data, lastUpdateTime := 0 }
      10 "Hola".data true).2.shouldSend = false := by decide
